import Mathlib

/-!
Verification of the SAP HANA compatibility layer for the MongoDB wire
protocol: a shallow embedding of the filter compiler (where.go), the
projection compiler, the upsert logic, the command registry, OP_QUERY
decoding, ObjectID generation and fjson string decoding, together with
theorems settling the specified properties.

Go machine integers are modelled as Int / Nat with explicit `% 2 ^ w`
where wraparound matters; fallible Go code returns `Except`; recursion
through the document tree is bounded by an explicit fuel parameter (the
`outOfFuel` error is an artefact of the embedding, never reached at
sufficient depth, and every theorem quantifies over the fuel).
-/

namespace SapHana

/-- The typed value model (internal/types): the closed set of scalar and
composite values the gateway manipulates.  Documents are ordered lists of
key/value pairs (insertion order preserved, keys unique on construction);
doubles are modelled as rationals, the claims touching them only compare
against zero. -/
inductive BValue where
  | int32 (n : Int)
  | int64 (n : Int)
  | double (q : Rat)
  | str (s : String)
  | bool (b : Bool)
  | null
  | datetime (ms : Int)
  | objectID (b : List Nat)
  | regex (pattern options : String)
  | doc (d : List (String × BValue))
  | array (xs : List BValue)

/-- Structural equality of values, mirroring reflect.DeepEqual as used by
updateUpsert. -/
def beqBValue : BValue → BValue → Bool
  | .int32 n, .int32 m => n == m
  | .int64 n, .int64 m => n == m
  | .double q, .double r => q == r
  | .str s, .str t => s == t
  | .bool a, .bool b => a == b
  | .null, .null => true
  | .datetime a, .datetime b => a == b
  | .objectID a, .objectID b => a == b
  | .regex p o, .regex p2 o2 => p == p2 && o == o2
  | .doc d1, .doc d2 => beqPairs d1 d2
  | .array a1, .array a2 => beqList a1 a2
  | _, _ => false
where
  beqPairs : List (String × BValue) → List (String × BValue) → Bool
    | [], [] => true
    | (k1, v1) :: r1, (k2, v2) :: r2 => k1 == k2 && beqBValue v1 v2 && beqPairs r1 r2
    | _, _ => false
  beqList : List BValue → List BValue → Bool
    | [], [] => true
    | v1 :: r1, v2 :: r2 => beqBValue v1 v2 && beqList r1 r2
    | _, _ => false

/-- types.Document.Get: the first binding of the key, if any. -/
def docGet : List (String × BValue) → String → Option BValue
  | [], _ => none
  | (k, v) :: rest, key => if k = key then some v else docGet rest key

/-- types.Document.Set: replace the first binding of the key in place,
else append a new binding at the end. -/
def docSet : List (String × BValue) → String → BValue → List (String × BValue)
  | [], key, v => [(key, v)]
  | (k, w) :: rest, key, v =>
    if k = key then (k, v) :: rest else (k, w) :: docSet rest key v

/-- Protocol error codes carried by common.NewErrorMessage errors that the
claims refer to. -/
inductive ErrCode where
  | badValue
  | regexOptions
  | notImplemented
  deriving DecidableEq

/-- Error outcomes of the translated Go code: `lazy` for plain lazyerrors
values (no protocol error code attached; formatting verbs of the Go
message are elided), `cmd` for common.NewErrorMessage errors carrying a
protocol code, `goPanic` for a failing Go type assertion, and `outOfFuel`
for exhausted recursion depth of the embedding. -/
inductive CompErr where
  | lazy (msg : String)
  | cmd (code : ErrCode) (msg : String)
  | goPanic (msg : String)
  | outOfFuel
  deriving DecidableEq

/-- Whether a computation succeeded. -/
def isOk {α : Type} : Except CompErr α → Bool
  | .ok _ => true
  | .error _ => false

/-- Whether a computation failed with an error carrying the BadValue code. -/
def isBadValue {α : Type} : Except CompErr α → Bool
  | .error (.cmd .badValue _) => true
  | _ => false

/-- One lowercase hexadecimal digit. -/
def hexDigit (n : Nat) : Char :=
  "0123456789abcdef".data.getD (n % 16) '0'

/-- Modelled from the spec: bson.ObjectID.MarshalJSON renders the 12 id
bytes as the extended-JSON ObjectID envelope with a hex payload. -/
def oidJson (b : List Nat) : String :=
  "\x7b\"$o\":\"" ++ ⟨(b.map fun x => [hexDigit (x / 16), hexDigit x]).flatten⟩ ++ "\"\x7d"

/-- strings.HasPrefix(key, "$"): whether the key names an operator. -/
def hasDollar (key : String) : Bool :=
  match key.data with
  | [] => false
  | c :: _ => c = '$'

/-- where.go scalar: compiles one scalar value to a parameterized SQL
fragment and its argument list.  The placeholder allocator (pg.Placeholder
is not part of the translated sources; modelled from the spec as a
monotonic counter whose Next emits the token `?`) is threaded as a Nat. -/
def scalar : BValue → Nat → Except CompErr (String × List BValue × Nat)
  | .int32 n, p => .ok ("to_jsonb(?::int4)", [.int32 n], p + 1)
  | .str s, p => .ok ("to_jsonb(?::text)", [.str s], p + 1)
  | .objectID b, p => .ok ("?", [.str (oidJson b)], p + 1)
  | .regex pat opts, p =>
    if opts.data.all (· = 'i') then
      .ok ("?", [.str (if opts = "" then pat else "(?" ++ opts ++ ")" ++ pat)], p + 1)
    else
      .error (.lazy "scalar: unhandled regex option")
  | _, _ => .error (.lazy "scalar: unhandled field")

/-- Modelled from the spec: common.InArray compiles the elements of a
membership list through `scalar`, collecting fragments and arguments in
order. -/
def inArrayAux : List BValue → Nat → Except CompErr (List String × List BValue × Nat)
  | [], p => .ok ([], [], p)
  | v :: rest, p => do
    let (s, a, p1) ← scalar v p
    let (ss, a2, p2) ← inArrayAux rest p1
    .ok (s :: ss, a ++ a2, p2)

/-- Join a list of fragments with a separator (Go accumulates the same
string with `+=`). -/
def joinSep (sep : String) : List String → String
  | [] => ""
  | [s] => s
  | s :: rest => s ++ sep ++ joinSep sep rest

/-- Modelled from the spec: common.InArray emits the parenthesized,
comma-separated membership list. -/
def inArray (xs : List BValue) (p : Nat) : Except CompErr (String × List BValue × Nat) := do
  let (ss, a, p1) ← inArrayAux xs p
  .ok ("(" ++ joinSep ", " ss ++ ")", a, p1)

/-- where.go fieldExpr, the $regex arm: `options` is the resolved $options
string (empty when $options is absent). -/
def compileRegex (field options : String) (value : BValue) (p : Nat) :
    Except CompErr (String × List BValue × Nat) :=
  match value with
  | .str s => do
    let (sq, a, p1) ← scalar (.regex s options) (p + 1)
    .ok ("_jsonb->>? ~" ++ " " ++ sq, .str field :: a, p1)
  | .regex pat ropts =>
    if options ≠ "" then
      if ropts ≠ "" then
        .error (.cmd .regexOptions "options set in both $regex and $options")
      else do
        let (sq, a, p1) ← scalar (.regex pat options) (p + 1)
        .ok ("_jsonb->>? ~" ++ " " ++ sq, .str field :: a, p1)
    else do
      let (sq, a, p1) ← scalar (.regex pat ropts) (p + 1)
      .ok ("_jsonb->>? ~" ++ " " ++ sq, .str field :: a, p1)
  | _ => .error (.cmd .badValue "$regex has to be a string")

mutual

/-- where.go fieldExpr, one operator pair of a field expression (the
switch over the operator); `opts` is the value bound to "$options" in the
surrounding expression document. -/
def compileOp : Nat → String → Option BValue → String → BValue → Nat →
    Except CompErr (String × List BValue × Nat)
  | 0, _, _, _, _, _ => .error .outOfFuel
  | fuel + 1, field, opts, op, value, p =>
    if op = "$not" then
      match value with
      | .doc d => do
        let (s, a, p1) ← fieldExprAux fuel field (docGet d "$options") d p
        .ok ("NOT(" ++ s ++ ")", a, p1)
      | _ => .error (.goPanic "fieldExpr: $not value is not a document")
    else if op = "$in" then
      match value with
      | .array xs => do
        let (s, a, p1) ← inArray xs (p + 1)
        .ok ("_jsonb->? IN" ++ " " ++ s, .str field :: a, p1)
      | _ => .error (.goPanic "fieldExpr: $in value is not an array")
    else if op = "$nin" then
      match value with
      | .array xs => do
        let (s, a, p1) ← inArray xs (p + 1)
        .ok ("_jsonb->? NOT IN" ++ " " ++ s, .str field :: a, p1)
      | _ => .error (.goPanic "fieldExpr: $nin value is not an array")
    else if op = "$eq" then do
      let (s, a, p1) ← scalar value (p + 1)
      .ok ("_jsonb->? =" ++ " " ++ s, .str field :: a, p1)
    else if op = "$ne" then do
      let (s, a, p1) ← scalar value (p + 1)
      .ok ("_jsonb->? <>" ++ " " ++ s, .str field :: a, p1)
    else if op = "$lt" then do
      let (s, a, p1) ← scalar value (p + 1)
      .ok ("_jsonb->? <" ++ " " ++ s, .str field :: a, p1)
    else if op = "$lte" then do
      let (s, a, p1) ← scalar value (p + 1)
      .ok ("_jsonb->? <=" ++ " " ++ s, .str field :: a, p1)
    else if op = "$gt" then do
      let (s, a, p1) ← scalar value (p + 1)
      .ok ("_jsonb->? >" ++ " " ++ s, .str field :: a, p1)
    else if op = "$gte" then do
      let (s, a, p1) ← scalar value (p + 1)
      .ok ("_jsonb->? >=" ++ " " ++ s, .str field :: a, p1)
    else if op = "$regex" then
      match opts with
      | some (.str options) => compileRegex field options value p
      | some _ => .error (.cmd .badValue "$options has to be a string")
      | none => compileRegex field "" value p
    else
      .error (.lazy "fieldExpr: unhandled operator")
  termination_by structural fuel _ _ _ _ _ => fuel

/-- where.go fieldExpr: folds the operator pairs of the expression
document, skipping "$options" pairs and joining the compiled pieces with
the SQL AND separator exactly as the Go accumulation does. -/
def fieldExprAux : Nat → String → Option BValue → List (String × BValue) → Nat →
    Except CompErr (String × List BValue × Nat)
  | 0, _, _, _, _ => .error .outOfFuel
  | _ + 1, _, _, [], p => .ok ("", [], p)
  | fuel + 1, field, opts, (op, value) :: rest, p =>
    if op = "$options" then
      fieldExprAux fuel field opts rest p
    else do
      let (piece, a1, p1) ← compileOp fuel field opts op value p
      let (srest, a2, p2) ← fieldExprAux fuel field opts rest p1
      .ok (if srest = "" then piece else piece ++ " AND " ++ srest, a1 ++ a2, p2)
  termination_by structural fuel _ _ _ _ => fuel

/-- where.go wherePair: one top-level key/value pair of a filter. -/
def wherePair : Nat → String → BValue → Nat →
    Except CompErr (String × List BValue × Nat)
  | 0, _, _, _ => .error .outOfFuel
  | fuel + 1, key, value, p =>
    if hasDollar key then
      match value with
      | .array xs => logicExpr fuel key xs p
      | _ => .error (.goPanic "wherePair: logical operator value is not an array")
    else
      match value with
      | .doc d => fieldExprAux fuel key (docGet d "$options") d p
      | .regex pat ropts => do
        let (s, a, p1) ← scalar (.regex pat ropts) (p + 1)
        .ok ("_jsonb->>? ~ " ++ s, .str key :: a, p1)
      | v => do
        let (s, a, p1) ← scalar v (p + 1)
        .ok ("_jsonb->? = " ++ s, .str key :: a, p1)
  termination_by structural fuel _ _ _ => fuel

/-- Modelled from the spec: common.LogicExpr composes the compiled
subexpressions of $and / $or / $nor re-entrantly through wherePair,
threading the placeholder allocator. -/
def logicExpr : Nat → String → List BValue → Nat →
    Except CompErr (String × List BValue × Nat)
  | 0, _, _, _ => .error .outOfFuel
  | fuel + 1, op, exprs, p =>
    if op = "$and" ∨ op = "$or" ∨ op = "$nor" then do
      let (ss, a, p1) ← logicElems fuel exprs p
      let joined := joinSep (if op = "$and" then " AND " else " OR ") ss
      .ok (if op = "$nor" then "NOT (" ++ joined ++ ")" else "(" ++ joined ++ ")", a, p1)
    else
      .error (.lazy "LogicExpr: unhandled logical operator")
  termination_by structural fuel _ _ _ => fuel

/-- Modelled from the spec: the elements of a logical-composition array,
each a filter document compiled pairwise. -/
def logicElems : Nat → List BValue → Nat →
    Except CompErr (List String × List BValue × Nat)
  | 0, _, _ => .error .outOfFuel
  | _ + 1, [], p => .ok ([], [], p)
  | fuel + 1, e :: rest, p =>
    match e with
    | .doc d => do
      let (ss, a1, p1) ← whereList fuel d p
      let (ss2, a2, p2) ← logicElems fuel rest p1
      .ok (("(" ++ joinSep " AND " ss ++ ")") :: ss2, a1 ++ a2, p2)
    | _ => .error (.goPanic "LogicExpr: subexpression is not a document")
  termination_by structural fuel _ _ => fuel

/-- where.go where, the per-pair loop body: compiles each top-level filter
pair, collecting the pieces and arguments in order. -/
def whereList : Nat → List (String × BValue) → Nat →
    Except CompErr (List String × List BValue × Nat)
  | 0, _, _ => .error .outOfFuel
  | _ + 1, [], p => .ok ([], [], p)
  | fuel + 1, (k, v) :: rest, p => do
    let (s, a1, p1) ← wherePair fuel k v p
    let (ss, a2, p2) ← whereList fuel rest p1
    .ok (s :: ss, a1 ++ a2, p2)
  termination_by structural fuel _ _ => fuel

end

/-- where.go fieldExpr entry point: resolves "$options" from the
expression document before folding its pairs. -/
def fieldExpr (fuel : Nat) (field : String) (expr : List (String × BValue)) (p : Nat) :
    Except CompErr (String × List BValue × Nat) :=
  fieldExprAux fuel field (docGet expr "$options") expr p

/-- where.go where: the top-level filter compiler (`where` is reserved in
Lean, hence the SQL suffix).  An empty filter compiles to the empty
fragment; otherwise each pair is parenthesized and joined with AND after
the WHERE keyword. -/
def whereSQL (fuel : Nat) (filter : List (String × BValue)) (p : Nat) :
    Except CompErr (String × List BValue × Nat) :=
  match filter with
  | [] => .ok ("", [], p)
  | _ => do
    let (ss, a, p1) ← whereList fuel filter p
    .ok (" WHERE (" ++ joinSep ") AND (" ss ++ ")", a, p1)

/-- The number of `?` placeholder tokens occurring in a SQL fragment. -/
def countQ (s : String) : Nat := s.data.count '?'

theorem countQ_append (a b : String) : countQ (a ++ b) = countQ a + countQ b := by
  simp [countQ, String.data_append, List.count_append]

theorem countQ_joinSep (sep : String) (hsep : countQ sep = 0) (ss : List String) :
    countQ (joinSep sep ss) = (ss.map countQ).sum := by
  induction ss with
  | nil => simp [joinSep, countQ]
  | cons s rest ih =>
    cases rest with
    | nil => simp [joinSep]
    | cons t r2 =>
      simp only [joinSep, countQ_append, List.map_cons, List.sum_cons] at *
      omega

theorem bind_ok {α β : Type} {e : Except CompErr α} {f : α → Except CompErr β} {r : β}
    (h : (e >>= f) = .ok r) : ∃ x, e = .ok x ∧ f x = .ok r := by
  cases e with
  | error err => exact absurd h (by simp [Bind.bind, Except.bind])
  | ok x => exact ⟨x, rfl, by simpa [Bind.bind, Except.bind] using h⟩

theorem scalar_balance : ∀ v p s a p', scalar v p = .ok (s, a, p') →
    countQ s = a.length := by
  intro v p s a p' h
  cases v with
  | int32 n =>
    simp only [scalar, Except.ok.injEq, Prod.mk.injEq] at h
    obtain ⟨hs, ha, _⟩ := h
    subst hs; subst ha
    simp only [List.length_singleton]
    decide
  | str t =>
    simp only [scalar, Except.ok.injEq, Prod.mk.injEq] at h
    obtain ⟨hs, ha, _⟩ := h
    subst hs; subst ha
    simp only [List.length_singleton]
    decide
  | objectID b =>
    simp only [scalar, Except.ok.injEq, Prod.mk.injEq] at h
    obtain ⟨hs, ha, _⟩ := h
    subst hs; subst ha
    simp only [List.length_singleton]
    decide
  | regex pat opts =>
    simp only [scalar] at h
    split at h
    · simp only [Except.ok.injEq, Prod.mk.injEq] at h
      obtain ⟨hs, ha, _⟩ := h
      subst hs; subst ha
      simp only [List.length_singleton]
      decide
    · exact Except.noConfusion h
  | int64 n => exact Except.noConfusion h
  | double q => exact Except.noConfusion h
  | bool b => exact Except.noConfusion h
  | null => exact Except.noConfusion h
  | datetime ms => exact Except.noConfusion h
  | doc d => exact Except.noConfusion h
  | array xs => exact Except.noConfusion h

theorem inArrayAux_balance : ∀ xs p ss a p', inArrayAux xs p = .ok (ss, a, p') →
    (ss.map countQ).sum = a.length := by
  intro xs
  induction xs with
  | nil =>
    intro p ss a p' h
    simp only [inArrayAux, Except.ok.injEq, Prod.mk.injEq] at h
    obtain ⟨hs, ha, _⟩ := h
    subst hs; subst ha; simp
  | cons v rest ih =>
    intro p ss a p' h
    simp only [inArrayAux] at h
    obtain ⟨⟨s1, a1, p1⟩, h1, h⟩ := bind_ok h
    obtain ⟨⟨ss2, a2, p2⟩, h2, h⟩ := bind_ok h
    simp only [Except.ok.injEq, Prod.mk.injEq] at h
    obtain ⟨hs, ha, _⟩ := h
    subst hs; subst ha
    have hb := scalar_balance v p s1 a1 p1 h1
    have hr := ih p1 ss2 a2 p2 h2
    simp [hb, hr]

theorem inArray_balance : ∀ xs p s a p', inArray xs p = .ok (s, a, p') →
    countQ s = a.length := by
  intro xs p s a p' h
  simp only [inArray] at h
  obtain ⟨⟨ss, a1, p1⟩, h1, h⟩ := bind_ok h
  simp only [Except.ok.injEq, Prod.mk.injEq] at h
  obtain ⟨hs, ha, _⟩ := h
  subst hs; subst ha
  have h0 : countQ "(" = 0 := by decide
  have h2 : countQ ")" = 0 := by decide
  rw [countQ_append, countQ_append, countQ_joinSep ", " (by decide), h0, h2]
  have := inArrayAux_balance xs p ss a1 p1 h1
  omega

theorem compileRegex_balance : ∀ field options v p s a p',
    compileRegex field options v p = .ok (s, a, p') → countQ s = a.length := by
  have harm : ∀ (w : BValue) (field : String) p s a p',
      (do
        let (sq, a1, p1) ← scalar w (p + 1)
        Except.ok ("_jsonb->>? ~" ++ " " ++ sq, BValue.str field :: a1, p1)) =
        Except.ok (s, a, p') → countQ s = a.length := by
    intro w field p s a p' h
    obtain ⟨⟨s1, a1, p1⟩, h1, h⟩ := bind_ok h
    simp only [Except.ok.injEq, Prod.mk.injEq] at h
    obtain ⟨hs, ha, _⟩ := h
    subst hs; subst ha
    have := scalar_balance _ _ _ _ _ h1
    simp only [countQ_append, List.length_cons]
    have h0 : countQ "_jsonb->>? ~" = 1 := by decide
    have h1' : countQ " " = 0 := by decide
    omega
  intro field options v p s a p' h
  cases v with
  | str t => exact harm (.regex t options) field p s a p' h
  | regex pat ropts =>
    simp only [compileRegex] at h
    split at h
    · split at h
      · exact Except.noConfusion h
      · exact harm (.regex pat options) field p s a p' h
    · exact harm (.regex pat ropts) field p s a p' h
  | int32 m => exact Except.noConfusion h
  | int64 m => exact Except.noConfusion h
  | double q => exact Except.noConfusion h
  | bool b => exact Except.noConfusion h
  | null => exact Except.noConfusion h
  | datetime ms => exact Except.noConfusion h
  | objectID b => exact Except.noConfusion h
  | doc d => exact Except.noConfusion h
  | array xs => exact Except.noConfusion h

set_option maxHeartbeats 2000000 in
theorem compile_balance : ∀ fuel,
    (∀ field opts op v p s a p', compileOp fuel field opts op v p = .ok (s, a, p') →
      countQ s = a.length) ∧
    (∀ field opts pairs p s a p', fieldExprAux fuel field opts pairs p = .ok (s, a, p') →
      countQ s = a.length) ∧
    (∀ k v p s a p', wherePair fuel k v p = .ok (s, a, p') →
      countQ s = a.length) ∧
    (∀ op xs p s a p', logicExpr fuel op xs p = .ok (s, a, p') →
      countQ s = a.length) ∧
    (∀ xs p ss a p', logicElems fuel xs p = .ok (ss, a, p') →
      (ss.map countQ).sum = a.length) ∧
    (∀ pairs p ss a p', whereList fuel pairs p = .ok (ss, a, p') →
      (ss.map countQ).sum = a.length) := by
  intro fuel
  induction fuel with
  | zero =>
    refine ⟨?_, ?_, ?_, ?_, ?_, ?_⟩ <;> intros <;> rename_i h <;>
      exact Except.noConfusion h
  | succ n ih =>
    obtain ⟨ihCO, ihFE, ihWP, ihLX, ihLE, ihWL⟩ := ih
    have hCO : ∀ field opts op v p s a p',
        compileOp (n + 1) field opts op v p = .ok (s, a, p') → countQ s = a.length := by
      intro field opts op v p s a p' h
      have hcmp : ∀ (pre : String), countQ pre = 1 →
          (do
            let (s1, a1, p1) ← scalar v (p + 1)
            Except.ok (pre ++ " " ++ s1, BValue.str field :: a1, p1)) =
            Except.ok (s, a, p') → countQ s = a.length := by
        intro pre hpre h'
        obtain ⟨⟨s1, a1, p1⟩, h1, h'⟩ := bind_ok h'
        simp only [Except.ok.injEq, Prod.mk.injEq] at h'
        obtain ⟨hs, ha, _⟩ := h'
        subst hs; subst ha
        have := scalar_balance _ _ _ _ _ h1
        simp only [countQ_append, List.length_cons]
        have h1' : countQ " " = 0 := by decide
        omega
      have hin : ∀ (pre : String), countQ pre = 1 → ∀ (xs : List BValue),
          (do
            let (s1, a1, p1) ← inArray xs (p + 1)
            Except.ok (pre ++ " " ++ s1, BValue.str field :: a1, p1)) =
            Except.ok (s, a, p') → countQ s = a.length := by
        intro pre hpre xs h'
        obtain ⟨⟨s1, a1, p1⟩, h1, h'⟩ := bind_ok h'
        simp only [Except.ok.injEq, Prod.mk.injEq] at h'
        obtain ⟨hs, ha, _⟩ := h'
        subst hs; subst ha
        have := inArray_balance _ _ _ _ _ h1
        simp only [countQ_append, List.length_cons]
        have h1' : countQ " " = 0 := by decide
        omega
      simp only [compileOp] at h
      split at h
      · -- $not
        cases v with
        | doc d =>
          obtain ⟨⟨s1, a1, p1⟩, h1, h⟩ := bind_ok h
          simp only [Except.ok.injEq, Prod.mk.injEq] at h
          obtain ⟨hs, ha, _⟩ := h
          subst hs; subst ha
          have := ihFE field (docGet d "$options") d p s1 a1 p1 h1
          simp only [countQ_append]
          have h0 : countQ "NOT(" = 0 := by decide
          have h1' : countQ ")" = 0 := by decide
          omega
        | int32 m => exact Except.noConfusion h
        | int64 m => exact Except.noConfusion h
        | double q => exact Except.noConfusion h
        | str t => exact Except.noConfusion h
        | bool b => exact Except.noConfusion h
        | null => exact Except.noConfusion h
        | datetime ms => exact Except.noConfusion h
        | objectID b => exact Except.noConfusion h
        | regex pat o => exact Except.noConfusion h
        | array xs => exact Except.noConfusion h
      split at h
      · -- $in
        cases v with
        | array xs => exact hin "_jsonb->? IN" (by decide) xs h
        | int32 m => exact Except.noConfusion h
        | int64 m => exact Except.noConfusion h
        | double q => exact Except.noConfusion h
        | str t => exact Except.noConfusion h
        | bool b => exact Except.noConfusion h
        | null => exact Except.noConfusion h
        | datetime ms => exact Except.noConfusion h
        | objectID b => exact Except.noConfusion h
        | regex pat o => exact Except.noConfusion h
        | doc d => exact Except.noConfusion h
      split at h
      · -- $nin
        cases v with
        | array xs => exact hin "_jsonb->? NOT IN" (by decide) xs h
        | int32 m => exact Except.noConfusion h
        | int64 m => exact Except.noConfusion h
        | double q => exact Except.noConfusion h
        | str t => exact Except.noConfusion h
        | bool b => exact Except.noConfusion h
        | null => exact Except.noConfusion h
        | datetime ms => exact Except.noConfusion h
        | objectID b => exact Except.noConfusion h
        | regex pat o => exact Except.noConfusion h
        | doc d => exact Except.noConfusion h
      split at h
      · exact hcmp "_jsonb->? =" (by decide) h
      split at h
      · exact hcmp "_jsonb->? <>" (by decide) h
      split at h
      · exact hcmp "_jsonb->? <" (by decide) h
      split at h
      · exact hcmp "_jsonb->? <=" (by decide) h
      split at h
      · exact hcmp "_jsonb->? >" (by decide) h
      split at h
      · exact hcmp "_jsonb->? >=" (by decide) h
      split at h
      · -- $regex
        cases opts with
        | none => exact compileRegex_balance _ _ _ _ _ _ _ h
        | some ov =>
          cases ov with
          | str options => exact compileRegex_balance _ _ _ _ _ _ _ h
          | int32 m => exact Except.noConfusion h
          | int64 m => exact Except.noConfusion h
          | double q => exact Except.noConfusion h
          | bool b => exact Except.noConfusion h
          | null => exact Except.noConfusion h
          | datetime ms => exact Except.noConfusion h
          | objectID b => exact Except.noConfusion h
          | regex pat o => exact Except.noConfusion h
          | doc d => exact Except.noConfusion h
          | array xs => exact Except.noConfusion h
      · exact Except.noConfusion h
    have hFE : ∀ field opts pairs p s a p',
        fieldExprAux (n + 1) field opts pairs p = .ok (s, a, p') → countQ s = a.length := by
      intro field opts pairs
      induction pairs with
      | nil =>
        intro p s a p' h
        simp only [fieldExprAux, Except.ok.injEq, Prod.mk.injEq] at h
        obtain ⟨hs, ha, _⟩ := h
        subst hs; subst ha; decide
      | cons kv rest ihrest =>
        intro p s a p' h
        obtain ⟨op, value⟩ := kv
        simp only [fieldExprAux] at h
        split at h
        · exact ihFE field opts rest p s a p' h
        · obtain ⟨⟨s1, a1, p1⟩, h1, h⟩ := bind_ok h
          obtain ⟨⟨s2, a2, p2⟩, h2, h⟩ := bind_ok h
          simp only [Except.ok.injEq, Prod.mk.injEq] at h
          obtain ⟨hs, ha, _⟩ := h
          subst hs; subst ha
          have hb1 := ihCO field opts op value p s1 a1 p1 h1
          have hb2 := ihFE field opts rest p1 s2 a2 p2 h2
          split
          · rename_i hs2
            subst hs2
            simp only [List.length_append]
            have : countQ "" = 0 := by decide
            omega
          · simp only [countQ_append, List.length_append]
            have h0 : countQ " AND " = 0 := by decide
            omega
    have hWP : ∀ k v p s a p',
        wherePair (n + 1) k v p = .ok (s, a, p') → countQ s = a.length := by
      intro k v p s a p' h
      have hdef : ∀ (w : BValue),
          (do
            let (s1, a1, p1) ← scalar w (p + 1)
            Except.ok ("_jsonb->? = " ++ s1, BValue.str k :: a1, p1)) =
            Except.ok (s, a, p') → countQ s = a.length := by
        intro w h'
        obtain ⟨⟨s1, a1, p1⟩, h1, h'⟩ := bind_ok h'
        simp only [Except.ok.injEq, Prod.mk.injEq] at h'
        obtain ⟨hs, ha, _⟩ := h'
        subst hs; subst ha
        have := scalar_balance _ _ _ _ _ h1
        simp only [countQ_append, List.length_cons]
        have h0 : countQ "_jsonb->? = " = 1 := by decide
        omega
      simp only [wherePair] at h
      split at h
      · cases v with
        | array xs => exact ihLX k xs p s a p' h
        | int32 m => exact Except.noConfusion h
        | int64 m => exact Except.noConfusion h
        | double q => exact Except.noConfusion h
        | str t => exact Except.noConfusion h
        | bool b => exact Except.noConfusion h
        | null => exact Except.noConfusion h
        | datetime ms => exact Except.noConfusion h
        | objectID b => exact Except.noConfusion h
        | regex pat o => exact Except.noConfusion h
        | doc d => exact Except.noConfusion h
      · cases v with
        | doc d => exact ihFE k (docGet d "$options") d p s a p' h
        | regex pat o =>
          obtain ⟨⟨s1, a1, p1⟩, h1, h⟩ := bind_ok h
          simp only [Except.ok.injEq, Prod.mk.injEq] at h
          obtain ⟨hs, ha, _⟩ := h
          subst hs; subst ha
          have := scalar_balance _ _ _ _ _ h1
          simp only [countQ_append, List.length_cons]
          have h0 : countQ "_jsonb->>? ~ " = 1 := by decide
          omega
        | int32 m => exact hdef (.int32 m) h
        | int64 m => exact hdef (.int64 m) h
        | double q => exact hdef (.double q) h
        | str t => exact hdef (.str t) h
        | bool b => exact hdef (.bool b) h
        | null => exact hdef .null h
        | datetime ms => exact hdef (.datetime ms) h
        | objectID b => exact hdef (.objectID b) h
        | array xs => exact hdef (.array xs) h
    have hWL : ∀ pairs p ss a p',
        whereList (n + 1) pairs p = .ok (ss, a, p') → (ss.map countQ).sum = a.length := by
      intro pairs
      induction pairs with
      | nil =>
        intro p ss a p' h
        simp only [whereList, Except.ok.injEq, Prod.mk.injEq] at h
        obtain ⟨hs, ha, _⟩ := h
        subst hs; subst ha; simp
      | cons kv rest ihrest =>
        intro p ss a p' h
        obtain ⟨k, v⟩ := kv
        simp only [whereList] at h
        obtain ⟨⟨s1, a1, p1⟩, h1, h⟩ := bind_ok h
        obtain ⟨⟨ss2, a2, p2⟩, h2, h⟩ := bind_ok h
        simp only [Except.ok.injEq, Prod.mk.injEq] at h
        obtain ⟨hs, ha, _⟩ := h
        subst hs; subst ha
        have hb1 := ihWP k v p s1 a1 p1 h1
        have hb2 := ihWL rest p1 ss2 a2 p2 h2
        simp only [List.map_cons, List.sum_cons, List.length_append]
        omega
    have hLE : ∀ xs p ss a p',
        logicElems (n + 1) xs p = .ok (ss, a, p') → (ss.map countQ).sum = a.length := by
      intro xs
      induction xs with
      | nil =>
        intro p ss a p' h
        simp only [logicElems, Except.ok.injEq, Prod.mk.injEq] at h
        obtain ⟨hs, ha, _⟩ := h
        subst hs; subst ha; simp
      | cons e rest ihrest =>
        intro p ss a p' h
        cases e with
        | doc d =>
          simp only [logicElems] at h
          obtain ⟨⟨ss1, a1, p1⟩, h1, h⟩ := bind_ok h
          obtain ⟨⟨ss2, a2, p2⟩, h2, h⟩ := bind_ok h
          simp only [Except.ok.injEq, Prod.mk.injEq] at h
          obtain ⟨hs, ha, _⟩ := h
          subst hs; subst ha
          have hb1 := ihWL d p ss1 a1 p1 h1
          have hb2 := ihLE rest p1 ss2 a2 p2 h2
          simp only [List.map_cons, List.sum_cons, List.length_append, countQ_append]
          rw [countQ_joinSep " AND " (by decide)]
          have h0 : countQ "(" = 0 := by decide
          have h1' : countQ ")" = 0 := by decide
          omega
        | int32 m => exact Except.noConfusion h
        | int64 m => exact Except.noConfusion h
        | double q => exact Except.noConfusion h
        | str t => exact Except.noConfusion h
        | bool b => exact Except.noConfusion h
        | null => exact Except.noConfusion h
        | datetime ms => exact Except.noConfusion h
        | objectID b => exact Except.noConfusion h
        | regex pat o => exact Except.noConfusion h
        | array ys => exact Except.noConfusion h
    have hLX : ∀ op xs p s a p',
        logicExpr (n + 1) op xs p = .ok (s, a, p') → countQ s = a.length := by
      intro op xs p s a p' h
      simp only [logicExpr] at h
      split at h
      · obtain ⟨⟨ss1, a1, p1⟩, h1, h⟩ := bind_ok h
        simp only [Except.ok.injEq, Prod.mk.injEq] at h
        obtain ⟨hs, ha, _⟩ := h
        subst hs; subst ha
        have hb1 := ihLE xs p ss1 a1 p1 h1
        have hsep : countQ (if op = "$and" then " AND " else " OR ") = 0 := by
          split
          · decide
          · decide
        split
        · simp only [countQ_append]
          rw [countQ_joinSep _ hsep]
          have h0 : countQ "NOT (" = 0 := by decide
          have h1' : countQ ")" = 0 := by decide
          omega
        · simp only [countQ_append]
          rw [countQ_joinSep _ hsep]
          have h0 : countQ "(" = 0 := by decide
          have h1' : countQ ")" = 0 := by decide
          omega
      · exact Except.noConfusion h
    exact ⟨hCO, hFE, hWP, hLX, hLE, hWL⟩

/-- C1: every filter document the filter compiler (`whereSQL`, via
`wherePair`, `fieldExpr` and `scalar`) compiles without error yields a
WHERE fragment whose number of `?` placeholders equals the length of the
returned argument list. -/
theorem c1_placeholders_eq_args (fuel : Nat) (filter : List (String × BValue))
    (p : Nat) (s : String) (a : List BValue) (p' : Nat)
    (h : whereSQL fuel filter p = .ok (s, a, p')) : countQ s = a.length := by
  match filter with
  | [] =>
    simp only [whereSQL, Except.ok.injEq, Prod.mk.injEq] at h
    obtain ⟨hs, ha, _⟩ := h
    subst hs; subst ha; decide
  | kv :: rest =>
    simp only [whereSQL] at h
    obtain ⟨⟨ss, a1, p1⟩, h1, h⟩ := bind_ok h
    simp only [Except.ok.injEq, Prod.mk.injEq] at h
    obtain ⟨hs, ha, _⟩ := h
    subst hs; subst ha
    have := (compile_balance fuel).2.2.2.2.2 (kv :: rest) p ss a1 p1 h1
    simp only [countQ_append]
    rw [countQ_joinSep ") AND (" (by decide)]
    have h0 : countQ " WHERE (" = 0 := by decide
    have h1' : countQ ")" = 0 := by decide
    omega

theorem ebind_ok {α β : Type} (x : α) (f : α → Except CompErr β) :
    (Except.ok x >>= f) = f x := rfl

theorem ebind_error {α β : Type} (e : CompErr) (f : α → Except CompErr β) :
    ((Except.error e : Except CompErr α) >>= f) = Except.error e := rfl

/-- Witness for C1: a concrete filter combining equality, $or, $in and a
regex value compiles to seven placeholders and seven arguments. -/
theorem c1_witness :
    whereSQL 20 [("a", .str "x"),
        ("$or", .array [.doc [("b", .doc [("$in", .array [.int32 1, .int32 2])])],
                        .doc [("c", .regex "^A" "i")]])] 0 =
      .ok (" WHERE (_jsonb->? = to_jsonb(?::text)) AND (((_jsonb->? IN (to_jsonb(?::int4), to_jsonb(?::int4))) OR (_jsonb->>? ~ ?)))",
        [.str "a", .str "x", .str "b", .int32 1, .int32 2, .str "c", .str "(?i)^A"], 7) ∧
    countQ " WHERE (_jsonb->? = to_jsonb(?::text)) AND (((_jsonb->? IN (to_jsonb(?::int4), to_jsonb(?::int4))) OR (_jsonb->>? ~ ?)))" =
      [BValue.str "a", .str "x", .str "b", .int32 1, .int32 2, .str "c", .str "(?i)^A"].length :=
  ⟨rfl, c1_placeholders_eq_args 20
    [("a", .str "x"),
     ("$or", .array [.doc [("b", .doc [("$in", .array [.int32 1, .int32 2])])],
                     .doc [("c", .regex "^A" "i")]])] 0 _ _ 7 rfl⟩

/-- C2 counterexample: with a $regex value carrying no options and a
non-empty $options string that is not a supported option character, the
field expression does NOT compile without error, contrary to the claim:
compilation fails in `scalar` on the unsupported option. -/
theorem c2_counterexample :
    fieldExpr 6 "f" [("$regex", .regex "a" ""), ("$options", .str "x")] 0 =
      .error (.lazy "scalar: unhandled regex option") := rfl

/-- C2 (amended): if the $regex value already carries options and a
non-empty $options string is present, compilation fails with the
RegexOptions error; if the $regex value carries no options, the $options
string is adopted as the regex options, and compilation succeeds exactly
when every character of it is the supported option letter i (otherwise it
fails with the scalar regex-option error, not with RegexOptions). -/
theorem c2_amended (fuel : Nat) (field pat ropts s : String) (p : Nat)
    (hs : s ≠ "") (hr : ropts ≠ "") :
    fieldExpr (fuel + 4) field [("$regex", .regex pat ropts), ("$options", .str s)] p =
      .error (.cmd .regexOptions "options set in both $regex and $options") ∧
    fieldExpr (fuel + 4) field [("$regex", .regex pat ""), ("$options", .str s)] p =
      (if s.data.all (· = 'i') then
        .ok ("_jsonb->>? ~" ++ " " ++ "?", [.str field, .str ("(?" ++ s ++ ")" ++ pat)], p + 1 + 1)
      else
        .error (.lazy "scalar: unhandled regex option")) := by
  constructor
  · show fieldExprAux _ _ _ _ _ = _
    have hdg : docGet [("$regex", BValue.regex pat ropts), ("$options", .str s)] "$options" =
        some (.str s) := by simp [docGet]
    rw [hdg]
    simp only [fieldExprAux, compileOp, compileRegex]
    simp [hs, hr, ebind_ok, ebind_error]
  · show fieldExprAux _ _ _ _ _ = _
    have hdg : docGet [("$regex", BValue.regex pat ""), ("$options", .str s)] "$options" =
        some (.str s) := by simp [docGet]
    rw [hdg]
    simp only [fieldExprAux, compileOp, compileRegex, scalar]
    by_cases hall : s.data.all (· = 'i')
    · rw [if_pos hall]
      simp [hs, hall, fieldExprAux, ebind_ok, ebind_error]
    · rw [if_neg hall]
      simp [hs, hall, ebind_ok, ebind_error]

/-- Witness for C2 (amended) at a concrete field expression: options in
both places raise RegexOptions, and with no options on the regex value the
$options string "i" is adopted and compilation succeeds. -/
theorem c2_witness :
    fieldExpr 4 "name" [("$regex", .regex "^A" "x"), ("$options", .str "i")] 0 =
      .error (.cmd .regexOptions "options set in both $regex and $options") ∧
    fieldExpr 4 "name" [("$regex", .regex "^A" ""), ("$options", .str "i")] 0 =
      .ok ("_jsonb->>? ~" ++ " " ++ "?", [.str "name", .str ("(?" ++ "i" ++ ")" ++ "^A")], 0 + 1 + 1) := by
  have h := c2_amended 0 "name" "^A" "x" "i" 0 (by decide) (by decide)
  refine ⟨h.1, ?_⟩
  rw [h.2]
  rfl

/-- The field-expression operators the compiler recognizes (including the
$options marker handled inside $regex). -/
def knownFieldOps : List String :=
  ["$not", "$options", "$in", "$nin", "$eq", "$ne", "$lt", "$lte", "$gt", "$gte", "$regex"]

theorem compileOp_unknown (fuel : Nat) (field : String) (opts : Option BValue)
    (op : String) (v : BValue) (p : Nat) (hop : op ∉ knownFieldOps) :
    isOk (compileOp fuel field opts op v p) = false := by
  simp only [knownFieldOps, List.mem_cons, not_or] at hop
  obtain ⟨h1, h2, h3, h4, h5, h6, h7, h8, h9, h10, h11, _⟩ := hop
  cases fuel with
  | zero => rfl
  | succ n =>
    simp only [compileOp, if_neg h1, if_neg h3, if_neg h4, if_neg h5, if_neg h6,
      if_neg h7, if_neg h8, if_neg h9, if_neg h10, if_neg h11]
    rfl

theorem fieldExprAux_cons_eq (fuel : Nat) (field : String) (opts : Option BValue)
    (op2 : String) (v2 : BValue) (rest : List (String × BValue)) (p : Nat)
    (hop2 : ¬ op2 = "$options") :
    fieldExprAux (fuel + 1) field opts ((op2, v2) :: rest) p =
      match compileOp fuel field opts op2 v2 p with
      | .error e => .error e
      | .ok (s1, a1, p1) =>
        match fieldExprAux fuel field opts rest p1 with
        | .error e => .error e
        | .ok (s2, a2, p2) =>
          .ok (if s2 = "" then s1 else s1 ++ " AND " ++ s2, a1 ++ a2, p2) := by
  simp only [fieldExprAux, if_neg hop2]
  cases compileOp fuel field opts op2 v2 p with
  | error e => rfl
  | ok x =>
    obtain ⟨s1, a1, p1⟩ := x
    simp only [ebind_ok]
    cases fieldExprAux fuel field opts rest p1 with
    | error e => rfl
    | ok y => obtain ⟨s2, a2, p2⟩ := y; rfl

/-- C3 counterexample: an unknown operator makes the compiler fail with a
plain lazyerrors error that carries no protocol error code, not with a
BadValue-coded error as the claim states. -/
theorem c3_counterexample :
    fieldExpr 6 "f" [("$foo", .int32 1)] 0 =
      .error (.lazy "fieldExpr: unhandled operator") ∧
    isBadValue (fieldExpr 6 "f" [("$foo", .int32 1)] 0) = false := ⟨rfl, rfl⟩

/-- C3 (amended): a field expression containing an operator outside the
recognized set never compiles successfully — it fails, though with an
uncoded lazy error rather than a BadValue-coded one. -/
theorem c3_amended : ∀ (fuel : Nat) (field : String) (opts : Option BValue)
    (pairs : List (String × BValue)) (p : Nat) (op : String) (v : BValue),
    (op, v) ∈ pairs → op ∉ knownFieldOps →
    isOk (fieldExprAux fuel field opts pairs p) = false := by
  intro fuel
  induction fuel with
  | zero => intros; rfl
  | succ n ih =>
    intro field opts pairs p op v hmem hop
    match pairs with
    | [] => exact absurd hmem (List.not_mem_nil _)
    | (op2, v2) :: rest =>
      by_cases hopt : op2 = "$options"
      · have hskip : fieldExprAux (n + 1) field opts ((op2, v2) :: rest) p =
            fieldExprAux n field opts rest p := by
          subst hopt
          simp [fieldExprAux]
        rw [hskip]
        have hmem2 : (op, v) ∈ rest := by
          rcases List.mem_cons.mp hmem with heq | hm
          · exfalso
            apply hop
            have : op = op2 := congrArg Prod.fst heq
            subst this; subst hopt
            simp [knownFieldOps]
          · exact hm
        exact ih field opts rest p op v hmem2 hop
      · rw [fieldExprAux_cons_eq n field opts op2 v2 rest p hopt]
        rcases List.mem_cons.mp hmem with heq | hm
        · have hoe : op = op2 := congrArg Prod.fst heq
          subst hoe
          split
          · rfl
          · rename_i s1 a1 p1 hco
            have := compileOp_unknown n field opts op v2 p hop
            rw [hco] at this
            exact absurd this (by simp [isOk])
        · split
          · rfl
          · rename_i s1 a1 p1 hco
            split
            · rfl
            · rename_i s2 a2 p2 hfe
              have hrec := ih field opts rest p1 op v hm hop
              rw [hfe] at hrec
              exact absurd hrec (by simp [isOk])

/-- Witness for C3 (amended) at a concrete unknown operator. -/
theorem c3_witness :
    isOk (fieldExprAux 6 "f" (docGet [("$foo", BValue.int32 1)] "$options")
      [("$foo", BValue.int32 1)] 0) = false :=
  c3_amended 6 "f" _ [("$foo", .int32 1)] 0 "$foo" (.int32 1) (by simp)
    (by simp [knownFieldOps])

/-- strings.Contains(k, "."): whether a projection key is a nested path. -/
def containsDot (k : String) : Bool := k.data.contains '.'

/-- The projection operators rejected up front by Projection. -/
def unimplementedFields : List String :=
  ["$", "$elemMatch", "$meta", "$slice", "$comment", "$rand"]

/-- Modelled from the spec: common.Unimplemented fails with NotImplemented
when the document carries any of the named fields. -/
def Unimplemented (projection : List (String × BValue)) (fields : List String) :
    Except CompErr Unit :=
  if fields.any fun f => (docGet projection f).isSome then
    .error (.cmd .notImplemented "projection operator is not implemented")
  else
    .ok ()

/-- types.CompareScalars v (int32 0) == equal for the numeric projection
values: the zero test on int32 / int64 / double. -/
def isZeroNumber : BValue → Bool
  | .int32 n => n == 0
  | .int64 n => n == 0
  | .double q => q == 0
  | _ => false

/-- msg_createindexes.go isProjectionInclusion: the loop body carrying the
inclusion / exclusion flags (named parameters here, local mutable
variables in Go). -/
def isProjectionInclusionAux : List (String × BValue) → Bool → Bool → Except CompErr Bool
  | [], inclusion, _ => .ok inclusion
  | (k, v) :: rest, inclusion, exclusion =>
    if k = "_id" then
      isProjectionInclusionAux rest inclusion exclusion
    else
      match v with
      | .bool b =>
        if b then
          if exclusion then
            .error (.lazy "Cannot do inclusion on field #{k} in exclusion projection")
          else if containsDot k then
            .error (.lazy "Projection on nested documents is not implemented, yet.")
          else
            isProjectionInclusionAux rest true exclusion
        else
          if inclusion then
            .error (.lazy "Cannot do exclusion on field #{k} in inclusion projection")
          else
            isProjectionInclusionAux rest inclusion true
      | .int32 _ | .int64 _ | .double _ =>
        if isZeroNumber v then
          if inclusion then
            .error (.lazy "Cannot do exclusion on field #{k} in inclusion projection")
          else
            isProjectionInclusionAux rest inclusion true
        else
          if exclusion then
            .error (.lazy "Cannot do inclusion on field #{k} in exclusion projection")
          else if containsDot k then
            .error (.lazy "Projection on nested documents is not implemented, yet.")
          else
            isProjectionInclusionAux rest true exclusion
      | _ => .error (.lazy "unsupported operation")

/-- msg_createindexes.go isProjectionInclusion. -/
def isProjectionInclusion (projection : List (String × BValue)) : Except CompErr Bool :=
  isProjectionInclusionAux projection false false

/-- msg_createindexes.go inclusionProjection, the indexed key loop. -/
def inclusionFields : Nat → List (String × BValue) → String
  | _, [] => ""
  | i, (k, _) :: rest =>
    if k = "_id" then
      inclusionFields (i + 1) rest
    else
      (if i ≠ 0 then ", " else "") ++ "\"" ++ k ++ "\": \"" ++ k ++ "\"" ++
        inclusionFields (i + 1) rest

/-- msg_createindexes.go inclusionProjection. -/
def inclusionProjection (projection : List (String × BValue)) : String :=
  let idPart :=
    match docGet projection "_id" with
    | some (.bool b) => if b then "\"_id\": \"_id\", " else ""
    | some (.int32 n) => if isZeroNumber (.int32 n) then "" else "\"_id\": \"_id\", "
    | some (.int64 n) => if isZeroNumber (.int64 n) then "" else "\"_id\": \"_id\", "
    | some (.double q) => if isZeroNumber (.double q) then "" else "\"_id\": \"_id\", "
    | some _ => ""
    | none => "\"_id\": \"_id\", "
  "\x7b" ++ idPart ++ inclusionFields 0 projection ++ "\x7d"

/-- msg_createindexes.go Projection: rejects unimplemented operators, then
classifies the projection as inclusion or exclusion; inclusion yields a
JSON-object projection, exclusion yields `*` with the exclusion flag. -/
def Projection (projection : List (String × BValue)) : Except CompErr (String × Bool) := do
  let _ ← Unimplemented projection unimplementedFields
  if projection.isEmpty then
    .ok ("*", false)
  else do
    let inclusion ← isProjectionInclusion projection
    if inclusion then
      .ok (inclusionProjection projection, false)
    else
      .ok ("*", true)

/-- An inclusion-mode projection value: true or a non-zero number. -/
def isInclVal : BValue → Bool
  | .bool b => b
  | .int32 n => !(n == 0)
  | .int64 n => !(n == 0)
  | .double q => !(q == 0)
  | _ => false

/-- An exclusion-mode projection value: false or a zero number. -/
def isExclVal : BValue → Bool
  | .bool b => !b
  | .int32 n => n == 0
  | .int64 n => n == 0
  | .double q => q == 0
  | _ => false

theorem incl_not_excl (v : BValue) (h : isInclVal v = true) : isExclVal v = false := by
  cases v <;> simp_all [isInclVal, isExclVal]

theorem excl_not_incl (v : BValue) (h : isExclVal v = true) : isInclVal v = false := by
  cases v <;> simp_all [isInclVal, isExclVal]

theorem incl_not_zero (v : BValue) (h : isInclVal v = true) : isZeroNumber v = false := by
  cases v <;> simp_all [isInclVal, isZeroNumber]

theorem excl_zero_of_num (n : Int) (h : isExclVal (.int32 n) = true) :
    isZeroNumber (.int32 n) = true := by simp_all [isExclVal, isZeroNumber]

theorem modePair_tail {k : String} {v : BValue} {rest : List (String × BValue)}
    {f : BValue → Bool} (hf : f v = false)
    (h : ∃ kv, kv ∈ (k, v) :: rest ∧ kv.1 ≠ "_id" ∧ f kv.2 = true) :
    ∃ kv, kv ∈ rest ∧ kv.1 ≠ "_id" ∧ f kv.2 = true := by
  obtain ⟨kv, hkv, hne, hfv⟩ := h
  rcases List.mem_cons.mp hkv with heq | hm
  · rw [heq] at hfv
    rw [hf] at hfv
    exact absurd hfv (by simp)
  · exact ⟨kv, hm, hne, hfv⟩

theorem modePair_tail_id {v : BValue} {rest : List (String × BValue)}
    {f : BValue → Bool}
    (h : ∃ kv, kv ∈ ("_id", v) :: rest ∧ kv.1 ≠ "_id" ∧ f kv.2 = true) :
    ∃ kv, kv ∈ rest ∧ kv.1 ≠ "_id" ∧ f kv.2 = true := by
  obtain ⟨kv, hkv, hne, hfv⟩ := h
  rcases List.mem_cons.mp hkv with heq | hm
  · exact absurd (congrArg Prod.fst heq) hne
  · exact ⟨kv, hm, hne, hfv⟩

theorem isProjIncl_err : ∀ (pairs : List (String × BValue)) (inc exc : Bool),
    ((∃ kv, kv ∈ pairs ∧ kv.1 ≠ "_id" ∧ isInclVal kv.2 = true) ∧
      (exc = true ∨ ∃ kv, kv ∈ pairs ∧ kv.1 ≠ "_id" ∧ isExclVal kv.2 = true)) ∨
    ((∃ kv, kv ∈ pairs ∧ kv.1 ≠ "_id" ∧ isExclVal kv.2 = true) ∧ inc = true) →
    ∃ msg, isProjectionInclusionAux pairs inc exc = .error (.lazy msg) := by
  intro pairs
  induction pairs with
  | nil =>
    intro inc exc hmix
    exfalso
    rcases hmix with ⟨⟨kv, hkv, _⟩, _⟩ | ⟨⟨kv, hkv, _⟩, _⟩ <;>
      exact (List.not_mem_nil kv) hkv
  | cons kv0 rest ih =>
    intro inc exc hmix
    obtain ⟨k, v⟩ := kv0
    by_cases hid : k = "_id"
    · subst hid
      rw [show isProjectionInclusionAux (("_id", v) :: rest) inc exc =
            isProjectionInclusionAux rest inc exc from by simp [isProjectionInclusionAux]]
      apply ih
      rcases hmix with ⟨h1, h2⟩ | ⟨h1, h2⟩
      · exact Or.inl ⟨modePair_tail_id h1, h2.imp id modePair_tail_id⟩
      · exact Or.inr ⟨modePair_tail_id h1, h2⟩
    · by_cases hincl : isInclVal v = true
      · -- the head pair is an inclusion pair
        have hexcf : isExclVal v = false := incl_not_excl v hincl
        have hstep : ∀ inc2,
            isProjectionInclusionAux ((k, v) :: rest) inc2 exc =
              if exc then .error (.lazy "Cannot do inclusion on field #{k} in exclusion projection")
              else if containsDot k then .error (.lazy "Projection on nested documents is not implemented, yet.")
              else isProjectionInclusionAux rest true exc := by
          intro inc2
          cases v with
          | bool b =>
            have hb : b = true := by simpa [isInclVal] using hincl
            subst hb
            simp [isProjectionInclusionAux, if_neg hid]
          | int32 n =>
            have hz : isZeroNumber (BValue.int32 n) = false := incl_not_zero _ hincl
            simp [isProjectionInclusionAux, if_neg hid, hz]
          | int64 n =>
            have hz : isZeroNumber (BValue.int64 n) = false := incl_not_zero _ hincl
            simp [isProjectionInclusionAux, if_neg hid, hz]
          | double q =>
            have hz : isZeroNumber (BValue.double q) = false := incl_not_zero _ hincl
            simp [isProjectionInclusionAux, if_neg hid, hz]
          | str t => exact absurd hincl (by simp [isInclVal])
          | null => exact absurd hincl (by simp [isInclVal])
          | datetime ms => exact absurd hincl (by simp [isInclVal])
          | objectID b => exact absurd hincl (by simp [isInclVal])
          | regex pat o => exact absurd hincl (by simp [isInclVal])
          | doc d => exact absurd hincl (by simp [isInclVal])
          | array xs => exact absurd hincl (by simp [isInclVal])
        rw [hstep inc]
        by_cases hexc : exc = true
        · rw [if_pos hexc]
          exact ⟨_, rfl⟩
        · have hexc' : exc = false := by revert hexc; cases exc <;> simp
          rw [if_neg (by rw [hexc']; simp)]
          by_cases hdot : containsDot k = true
          · rw [if_pos hdot]
            exact ⟨_, rfl⟩
          · rw [if_neg hdot]
            apply ih
            rcases hmix with ⟨h1, h2⟩ | ⟨h1, h2⟩
            · rcases h2 with h2 | h2
              · exact absurd h2 (by rw [hexc']; simp)
              · exact Or.inr ⟨modePair_tail hexcf h2, rfl⟩
            · exact Or.inr ⟨modePair_tail hexcf h1, rfl⟩
      · by_cases hexcl : isExclVal v = true
        · -- the head pair is an exclusion pair
          have hinclf : isInclVal v = false := excl_not_incl v hexcl
          have hstep : ∀ exc2,
              isProjectionInclusionAux ((k, v) :: rest) inc exc2 =
                if inc then .error (.lazy "Cannot do exclusion on field #{k} in inclusion projection")
                else isProjectionInclusionAux rest inc true := by
            intro exc2
            cases v with
            | bool b =>
              have hb : b = false := by
                revert hexcl; cases b <;> simp [isExclVal]
              subst hb
              simp [isProjectionInclusionAux, if_neg hid]
            | int32 n =>
              have hz : isZeroNumber (BValue.int32 n) = true := by
                simpa [isExclVal, isZeroNumber] using hexcl
              simp [isProjectionInclusionAux, if_neg hid, hz]
            | int64 n =>
              have hz : isZeroNumber (BValue.int64 n) = true := by
                simpa [isExclVal, isZeroNumber] using hexcl
              simp [isProjectionInclusionAux, if_neg hid, hz]
            | double q =>
              have hz : isZeroNumber (BValue.double q) = true := by
                simpa [isExclVal, isZeroNumber] using hexcl
              simp [isProjectionInclusionAux, if_neg hid, hz]
            | str t => exact absurd hexcl (by simp [isExclVal])
            | null => exact absurd hexcl (by simp [isExclVal])
            | datetime ms => exact absurd hexcl (by simp [isExclVal])
            | objectID b => exact absurd hexcl (by simp [isExclVal])
            | regex pat o => exact absurd hexcl (by simp [isExclVal])
            | doc d => exact absurd hexcl (by simp [isExclVal])
            | array xs => exact absurd hexcl (by simp [isExclVal])
          rw [hstep exc]
          by_cases hinc : inc = true
          · rw [if_pos hinc]
            exact ⟨_, rfl⟩
          · have hinc' : inc = false := by revert hinc; cases inc <;> simp
            rw [if_neg (by rw [hinc']; simp)]
            apply ih
            rcases hmix with ⟨h1, h2⟩ | ⟨h1, h2⟩
            · exact Or.inl ⟨modePair_tail hinclf h1, Or.inl rfl⟩
            · exact absurd h2 (by rw [hinc']; simp)
        · -- unsupported value type: the loop errors immediately
          have hstep : isProjectionInclusionAux ((k, v) :: rest) inc exc =
              .error (.lazy "unsupported operation") := by
            cases v with
            | bool b =>
              cases b
              · exact absurd (by simp [isExclVal] : isExclVal (BValue.bool false) = true) hexcl
              · exact absurd (by simp [isInclVal] : isInclVal (BValue.bool true) = true) hincl
            | int32 n =>
              by_cases hn : n = 0
              · exact absurd (by simp [isExclVal, hn] : isExclVal (BValue.int32 n) = true) hexcl
              · exact absurd (by simp [isInclVal, hn] : isInclVal (BValue.int32 n) = true) hincl
            | int64 n =>
              by_cases hn : n = 0
              · exact absurd (by simp [isExclVal, hn] : isExclVal (BValue.int64 n) = true) hexcl
              · exact absurd (by simp [isInclVal, hn] : isInclVal (BValue.int64 n) = true) hincl
            | double q =>
              by_cases hn : q = 0
              · exact absurd (by simp [isExclVal, hn] : isExclVal (BValue.double q) = true) hexcl
              · exact absurd (by simp [isInclVal, hn] : isInclVal (BValue.double q) = true) hincl
            | str t => simp [isProjectionInclusionAux, if_neg hid]
            | null => simp [isProjectionInclusionAux, if_neg hid]
            | datetime ms => simp [isProjectionInclusionAux, if_neg hid]
            | objectID b => simp [isProjectionInclusionAux, if_neg hid]
            | regex pat o => simp [isProjectionInclusionAux, if_neg hid]
            | doc d => simp [isProjectionInclusionAux, if_neg hid]
            | array xs => simp [isProjectionInclusionAux, if_neg hid]
          rw [hstep]
          exact ⟨_, rfl⟩

theorem isProjIncl_ok_incl : ∀ (pairs : List (String × BValue)) (inc : Bool),
    (∀ kv, kv ∈ pairs → kv.1 ≠ "_id" →
      isInclVal kv.2 = true ∧ containsDot kv.1 = false) →
    ∃ b, isProjectionInclusionAux pairs inc false = .ok b := by
  intro pairs
  induction pairs with
  | nil => intro inc _; exact ⟨inc, rfl⟩
  | cons kv0 rest ih =>
    intro inc hall
    obtain ⟨k, v⟩ := kv0
    by_cases hid : k = "_id"
    · subst hid
      rw [show isProjectionInclusionAux (("_id", v) :: rest) inc false =
            isProjectionInclusionAux rest inc false from by simp [isProjectionInclusionAux]]
      exact ih inc fun kv hm => hall kv (List.mem_cons_of_mem _ hm)
    · obtain ⟨hincl, hdot⟩ := hall (k, v) (List.mem_cons_self _ _) hid
      have hrest := fun kv hm => hall kv (List.mem_cons_of_mem _ hm)
      have hstep : isProjectionInclusionAux ((k, v) :: rest) inc false =
          isProjectionInclusionAux rest true false := by
        cases v with
        | bool b =>
          have hb : b = true := by simpa [isInclVal] using hincl
          subst hb
          simp [isProjectionInclusionAux, if_neg hid, hdot]
        | int32 n =>
          have hz : isZeroNumber (BValue.int32 n) = false := incl_not_zero _ hincl
          simp [isProjectionInclusionAux, if_neg hid, hz, hdot]
        | int64 n =>
          have hz : isZeroNumber (BValue.int64 n) = false := incl_not_zero _ hincl
          simp [isProjectionInclusionAux, if_neg hid, hz, hdot]
        | double q =>
          have hz : isZeroNumber (BValue.double q) = false := incl_not_zero _ hincl
          simp [isProjectionInclusionAux, if_neg hid, hz, hdot]
        | str t => exact absurd hincl (by simp [isInclVal])
        | null => exact absurd hincl (by simp [isInclVal])
        | datetime ms => exact absurd hincl (by simp [isInclVal])
        | objectID b => exact absurd hincl (by simp [isInclVal])
        | regex pat o => exact absurd hincl (by simp [isInclVal])
        | doc d => exact absurd hincl (by simp [isInclVal])
        | array xs => exact absurd hincl (by simp [isInclVal])
      rw [hstep]
      exact ih true hrest

theorem isProjIncl_ok_excl : ∀ (pairs : List (String × BValue)) (exc : Bool),
    (∀ kv, kv ∈ pairs → kv.1 ≠ "_id" → isExclVal kv.2 = true) →
    ∃ b, isProjectionInclusionAux pairs false exc = .ok b := by
  intro pairs
  induction pairs with
  | nil => intro exc _; exact ⟨false, rfl⟩
  | cons kv0 rest ih =>
    intro exc hall
    obtain ⟨k, v⟩ := kv0
    by_cases hid : k = "_id"
    · subst hid
      rw [show isProjectionInclusionAux (("_id", v) :: rest) false exc =
            isProjectionInclusionAux rest false exc from by simp [isProjectionInclusionAux]]
      exact ih exc fun kv hm => hall kv (List.mem_cons_of_mem _ hm)
    · have hexcl := hall (k, v) (List.mem_cons_self _ _) hid
      have hrest := fun kv hm => hall kv (List.mem_cons_of_mem _ hm)
      have hstep : isProjectionInclusionAux ((k, v) :: rest) false exc =
          isProjectionInclusionAux rest false true := by
        cases v with
        | bool b =>
          have hb : b = false := by
            revert hexcl; cases b <;> simp [isExclVal]
          subst hb
          simp [isProjectionInclusionAux, if_neg hid]
        | int32 n =>
          have hz : isZeroNumber (BValue.int32 n) = true := by
            simpa [isExclVal, isZeroNumber] using hexcl
          simp [isProjectionInclusionAux, if_neg hid, hz]
        | int64 n =>
          have hz : isZeroNumber (BValue.int64 n) = true := by
            simpa [isExclVal, isZeroNumber] using hexcl
          simp [isProjectionInclusionAux, if_neg hid, hz]
        | double q =>
          have hz : isZeroNumber (BValue.double q) = true := by
            simpa [isExclVal, isZeroNumber] using hexcl
          simp [isProjectionInclusionAux, if_neg hid, hz]
        | str t => exact absurd hexcl (by simp [isExclVal])
        | null => exact absurd hexcl (by simp [isExclVal])
        | datetime ms => exact absurd hexcl (by simp [isExclVal])
        | objectID b => exact absurd hexcl (by simp [isExclVal])
        | regex pat o => exact absurd hexcl (by simp [isExclVal])
        | doc d => exact absurd hexcl (by simp [isExclVal])
        | array xs => exact absurd hexcl (by simp [isExclVal])
      rw [hstep]
      exact ih true hrest

theorem docGet_some_mem : ∀ (pairs : List (String × BValue)) (k : String) (v : BValue),
    docGet pairs k = some v → (k, v) ∈ pairs := by
  intro pairs
  induction pairs with
  | nil => intro k v h; exact absurd h (by simp [docGet])
  | cons kv0 rest ih =>
    intro k v h
    obtain ⟨k0, v0⟩ := kv0
    by_cases hk : k0 = k
    · subst hk
      have hv : v0 = v := by simpa [docGet] using h
      subst hv
      exact List.mem_cons_self _ _
    · simp only [docGet, if_neg hk] at h
      exact List.mem_cons_of_mem _ (ih k v h)

theorem Unimplemented_ok (pairs : List (String × BValue)) (fields : List String)
    (h : ∀ f, f ∈ fields → docGet pairs f = none) :
    Unimplemented pairs fields = .ok () := by
  rw [Unimplemented, if_neg]
  simp only [List.any_eq_true, not_exists, not_and]
  intro f hf
  rw [h f hf]
  simp

/-- C4 counterexample: an inclusion pair and an exclusion pair on non-_id
keys make projection compilation fail, but with a plain lazyerrors error
carrying no protocol code — not with a BadValue-coded error as the claim
states. -/
theorem c4_counterexample :
    Projection [("a", .bool true), ("b", .bool false)] =
      .error (.lazy "Cannot do exclusion on field #{k} in inclusion projection") ∧
    isBadValue (Projection [("a", .bool true), ("b", .bool false)]) = false := ⟨rfl, rfl⟩

/-- C4 (amended): over supported projection values (booleans and numbers)
with no unimplemented operator keys and no dotted inclusion keys, a
projection mixing an inclusion pair and an exclusion pair on non-_id keys
fails — with an uncoded lazy error rather than a BadValue-coded one —
while a projection using only one of the two modes (with _id allowed in
either) compiles successfully. -/
theorem c4_mixed_fails_single_mode_ok (pairs : List (String × BValue))
    (hun : ∀ kv, kv ∈ pairs → kv.1 ∉ unimplementedFields)
    (hdot : ∀ kv, kv ∈ pairs → kv.1 ≠ "_id" → isInclVal kv.2 = true →
      containsDot kv.1 = false)
    (hsup : ∀ kv, kv ∈ pairs → kv.1 ≠ "_id" →
      (isInclVal kv.2 || isExclVal kv.2) = true) :
    (((∃ kv, kv ∈ pairs ∧ kv.1 ≠ "_id" ∧ isInclVal kv.2 = true) ∧
      (∃ kv, kv ∈ pairs ∧ kv.1 ≠ "_id" ∧ isExclVal kv.2 = true)) →
      ∃ msg, Projection pairs = .error (.lazy msg)) ∧
    (((∀ kv, kv ∈ pairs → kv.1 ≠ "_id" → isInclVal kv.2 = true) ∨
      (∀ kv, kv ∈ pairs → kv.1 ≠ "_id" → isExclVal kv.2 = true)) →
      isOk (Projection pairs) = true) := by
  have hU : Unimplemented pairs unimplementedFields = .ok () := by
    apply Unimplemented_ok
    intro f hf
    cases hd : docGet pairs f with
    | none => rfl
    | some v => exact absurd hf (hun (f, v) (docGet_some_mem pairs f v hd))
  constructor
  · rintro ⟨h1, h2⟩
    have hne : pairs.isEmpty = false := by
      obtain ⟨kv, hkv, _⟩ := h1
      cases pairs with
      | nil => exact absurd hkv (List.not_mem_nil kv)
      | cons a b => rfl
    obtain ⟨msg, herr⟩ := isProjIncl_err pairs false false (Or.inl ⟨h1, Or.inr h2⟩)
    refine ⟨msg, ?_⟩
    rw [Projection, hU, ebind_ok]
    rw [if_neg (by rw [hne]; simp)]
    rw [show isProjectionInclusion pairs = .error (.lazy msg) from herr, ebind_error]
  · intro hpure
    rw [Projection, hU, ebind_ok]
    cases pairs with
    | nil => rfl
    | cons a b =>
      rw [if_neg (by simp)]
      have hok : ∃ bb, isProjectionInclusion (a :: b) = .ok bb := by
        rcases hpure with hp | hp
        · exact isProjIncl_ok_incl (a :: b) false fun kv hm hni =>
            ⟨hp kv hm hni, hdot kv hm hni (hp kv hm hni)⟩
        · exact isProjIncl_ok_excl (a :: b) false hp
      obtain ⟨bb, hok⟩ := hok
      rw [hok, ebind_ok]
      cases bb <;> rfl

/-- Witness for C4 (amended) at a concrete pure-inclusion projection. -/
theorem c4_witness :
    isOk (Projection [("_id", .bool false), ("a", .bool true), ("b", .int32 1)]) = true :=
  (c4_mixed_fails_single_mode_ok [("_id", .bool false), ("a", .bool true), ("b", .int32 1)]
    (by decide) (by decide) (by decide)).2
    (Or.inl (by decide))

/-- Whether a value is a document (the type assertion in filterUpsert). -/
def isDocV : BValue → Bool
  | .doc _ => true
  | _ => false

/-- Whether a value is an array (used to state the claim's scalar-pair
predicate; the corresponding skip in the source is dead code, see
filterUpsertAux). -/
def isArrV : BValue → Bool
  | .array _ => true
  | _ => false

/-- msg_createindexes.go filterUpsert, the loop over the filter pairs
(Go ranges over the document map; the embedding uses document order, which
does not affect the extracted bindings or the _id flag).  The source also
has a `case types.Array:` skip, but that assertion never matches: document
values hold *types.Array (where.go asserts value.(*types.Array) on the
same values), so array values are NOT skipped and an array-valued _id
sets the flag.  types.Document.Set cannot fail in the model, so no error
outcome remains. -/
def filterUpsertAux : List (String × BValue) → List (String × BValue) → Bool →
    List (String × BValue) × Bool
  | [], acc, idFilter => (acc, idFilter)
  | (key, value) :: rest, acc, idFilter =>
    if hasDollar key then
      filterUpsertAux rest acc idFilter
    else if isDocV value then
      filterUpsertAux rest acc idFilter
    else
      filterUpsertAux rest (docSet acc key value) (idFilter || key == "_id")

/-- msg_createindexes.go filterUpsert. -/
def filterUpsert (filter : List (String × BValue)) : List (String × BValue) × Bool :=
  filterUpsertAux filter [] false

/-- msg_createindexes.go updateUpsert, the loop over the $set pairs. -/
def updateUpsertAux : List (String × BValue) → List (String × BValue) → Bool →
    Except CompErr (List (String × BValue) × Bool)
  | [], d, idUpdate => .ok (d, idUpdate)
  | (key, value) :: rest, d, idUpdate =>
    if hasDollar key then
      updateUpsertAux rest d idUpdate
    else
      match docGet d key with
      | some dValue =>
        if beqBValue value dValue then
          updateUpsertAux rest d idUpdate
        else
          .error (.lazy "Key-value pair from query document is not equal to same key-value pair in update document")
      | none =>
        updateUpsertAux rest (docSet d key value) (idUpdate || key == "_id")

/-- msg_createindexes.go updateUpsert: applies the $set document of the
update to the seed document; the idFilter argument is accepted but unused,
as in the source. -/
def updateUpsert (updateDoc : List (String × BValue)) (_idFilter : Bool)
    (d : List (String × BValue)) : Except CompErr (List (String × BValue) × Bool) :=
  match docGet updateDoc "$set" with
  | some (.doc setDoc) => updateUpsertAux setDoc d false
  | _ => .ok (d, false)

/-- msg_createindexes.go Upsert.  `newId` stands for the ObjectID freshly
produced by generateObjectID; the returned Bool records whether that fresh
id was stored into the document (the `!idFilter && !idUpdate` branch).
The err assigned from updateUpsert is never checked: the function returns
`doc, nil` unconditionally.  When updateUpsert fails it returned a nil
document and idUpdate = false, so the guard reduces to !idFilter: if the
filter supplied no _id the subsequent doc.Set dereferences the nil
document and panics, otherwise the nil document is returned with a nil
error.  The returned document is therefore an Option, with the nil
dereference surfaced as a Go panic. -/
def Upsert (updateDoc filter : List (String × BValue)) (replace : Bool)
    (newId : BValue) :
    Except CompErr (Option (List (String × BValue)) × Bool) :=
  if replace then
    .ok (some (docSet updateDoc "_id" newId), true)
  else
    match filterUpsert filter with
    | (d, idFilter) =>
      match updateUpsert updateDoc idFilter d with
      | .ok (doc, idUpdate) =>
        if !idFilter && !idUpdate then
          .ok (some (docSet doc "_id" newId), true)
        else
          .ok (some doc, false)
      | .error _ =>
        if !idFilter then
          .error (.goPanic "Upsert: Set called on nil document")
        else
          .ok (none, false)

/-- The filter contributed an _id key as an equality, non-operator pair
whose value is not a document.  Array values count: the source fails to
skip them (see filterUpsertAux). -/
def filterSuppliesID (filter : List (String × BValue)) : Bool :=
  filter.any fun kv => !hasDollar kv.1 && !isDocV kv.2 && kv.1 == "_id"

/-- The claim's reading of the same predicate: an _id equality pair whose
value is a scalar, neither a document nor an array. -/
def filterSuppliesScalarID (filter : List (String × BValue)) : Bool :=
  filter.any fun kv => !hasDollar kv.1 && !isDocV kv.2 && !isArrV kv.2 && kv.1 == "_id"

/-- The $set document of the update contains an _id key. -/
def setSuppliesID (updateDoc : List (String × BValue)) : Bool :=
  match docGet updateDoc "$set" with
  | some (.doc setDoc) => setDoc.any fun kv => !hasDollar kv.1 && kv.1 == "_id"
  | _ => false

theorem docGet_set_self (d : List (String × BValue)) (k : String) (v : BValue) :
    docGet (docSet d k v) k = some v := by
  induction d with
  | nil => simp [docSet, docGet]
  | cons kv rest ih =>
    obtain ⟨k0, v0⟩ := kv
    by_cases hk : k0 = k
    · subst hk
      simp [docSet, docGet]
    · simp [docSet, docGet, if_neg hk, ih]

theorem docGet_set_ne (d : List (String × BValue)) (k1 : String) (v : BValue)
    (k2 : String) (h : k1 ≠ k2) : docGet (docSet d k1 v) k2 = docGet d k2 := by
  induction d with
  | nil => simp [docSet, docGet, if_neg h]
  | cons kv rest ih =>
    obtain ⟨k0, v0⟩ := kv
    by_cases hk : k0 = k1
    · subst hk
      simp [docSet, docGet, h]
    · simp [docSet, docGet, if_neg hk, ih]

theorem filterUpsertAux_flag : ∀ (F acc : List (String × BValue)) (idf : Bool),
    (filterUpsertAux F acc idf).2 =
      (idf || F.any fun kv => !hasDollar kv.1 && !isDocV kv.2 && kv.1 == "_id") := by
  intro F
  induction F with
  | nil => intro acc idf; simp [filterUpsertAux]
  | cons kv rest ih =>
    intro acc idf
    obtain ⟨key, value⟩ := kv
    by_cases hd : hasDollar key
    · simp [filterUpsertAux, hd, ih, List.any_cons]
    · by_cases hdoc : isDocV value
      · simp [filterUpsertAux, hd, hdoc, ih, List.any_cons]
      · rw [show filterUpsertAux ((key, value) :: rest) acc idf =
              filterUpsertAux rest (docSet acc key value) (idf || key == "_id") from by
            simp [filterUpsertAux, hd, hdoc]]
        simp [ih, List.any_cons, hd, hdoc, Bool.or_assoc]

theorem filterUpsertAux_get_none : ∀ (F acc : List (String × BValue)) (idf : Bool)
    (k : String),
    docGet acc k = none →
    (F.any fun kv => !hasDollar kv.1 && !isDocV kv.2 && kv.1 == k) = false →
    docGet (filterUpsertAux F acc idf).1 k = none := by
  intro F
  induction F with
  | nil => intro acc idf k hacc _; simpa [filterUpsertAux] using hacc
  | cons kv rest ih =>
    intro acc idf k hacc hany
    obtain ⟨key, value⟩ := kv
    simp only [List.any_cons, Bool.or_eq_false_iff] at hany
    obtain ⟨hhead, hrest⟩ := hany
    by_cases hd : hasDollar key
    · rw [show filterUpsertAux ((key, value) :: rest) acc idf =
            filterUpsertAux rest acc idf from by simp [filterUpsertAux, hd]]
      exact ih acc idf k hacc hrest
    · by_cases hdoc : isDocV value
      · rw [show filterUpsertAux ((key, value) :: rest) acc idf =
              filterUpsertAux rest acc idf from by simp [filterUpsertAux, hd, hdoc]]
        exact ih acc idf k hacc hrest
      · rw [show filterUpsertAux ((key, value) :: rest) acc idf =
              filterUpsertAux rest (docSet acc key value) (idf || key == "_id") from by
            simp [filterUpsertAux, hd, hdoc]]
        have hkey : key ≠ k := by
          intro hkk
          subst hkk
          simp [hd, hdoc] at hhead
        exact ih _ _ k (by rw [docGet_set_ne acc key value k hkey]; exact hacc) hrest

theorem filterUpsertAux_keys : ∀ (F acc : List (String × BValue)) (idf : Bool),
    (∀ k v, docGet acc k = some v → hasDollar k = false) →
    ∀ k v, docGet (filterUpsertAux F acc idf).1 k = some v → hasDollar k = false := by
  intro F
  induction F with
  | nil => intro acc idf hacc k v h; exact hacc k v (by simpa [filterUpsertAux] using h)
  | cons kv rest ih =>
    intro acc idf hacc k v h
    obtain ⟨key, value⟩ := kv
    by_cases hd : hasDollar key
    · rw [show filterUpsertAux ((key, value) :: rest) acc idf =
            filterUpsertAux rest acc idf from by simp [filterUpsertAux, hd]] at h
      exact ih acc idf hacc k v h
    · by_cases hdoc : isDocV value
      · rw [show filterUpsertAux ((key, value) :: rest) acc idf =
              filterUpsertAux rest acc idf from by simp [filterUpsertAux, hd, hdoc]] at h
        exact ih acc idf hacc k v h
      · rw [show filterUpsertAux ((key, value) :: rest) acc idf =
              filterUpsertAux rest (docSet acc key value) (idf || key == "_id") from by
            simp [filterUpsertAux, hd, hdoc]] at h
        refine ih _ _ ?_ k v h
        intro k2 v2 h2
        by_cases hk2 : key = k2
        · subst hk2
          simpa using hd
        · rw [docGet_set_ne acc key value k2 hk2] at h2
          exact hacc k2 v2 h2

theorem updateUpsertAux_true : ∀ (pairs d : List (String × BValue))
    (d' : List (String × BValue)) (b : Bool),
    updateUpsertAux pairs d true = .ok (d', b) → b = true := by
  intro pairs
  induction pairs with
  | nil =>
    intro d d' b h
    simp only [updateUpsertAux, Except.ok.injEq, Prod.mk.injEq] at h
    exact h.2.symm
  | cons kv rest ih =>
    intro d d' b h
    obtain ⟨key, value⟩ := kv
    by_cases hd : hasDollar key
    · rw [show updateUpsertAux ((key, value) :: rest) d true =
            updateUpsertAux rest d true from by simp [updateUpsertAux, hd]] at h
      exact ih d d' b h
    · simp only [updateUpsertAux, if_neg hd] at h
      cases hg : docGet d key with
      | some dValue =>
        simp only [hg] at h
        by_cases hb : beqBValue value dValue
        · rw [if_pos hb] at h
          exact ih d d' b h
        · rw [if_neg hb] at h
          exact Except.noConfusion h
      | none =>
        simp only [hg] at h
        rw [show (true || (key == "_id")) = true from by simp] at h
        exact ih _ d' b h

theorem updateUpsertAux_no_id : ∀ (pairs d : List (String × BValue))
    (d' : List (String × BValue)) (b : Bool),
    docGet d "_id" = none →
    updateUpsertAux pairs d false = .ok (d', b) →
    b = pairs.any fun kv => !hasDollar kv.1 && kv.1 == "_id" := by
  intro pairs
  induction pairs with
  | nil =>
    intro d d' b _ h
    simp only [updateUpsertAux, Except.ok.injEq, Prod.mk.injEq] at h
    rw [← h.2]
    simp
  | cons kv rest ih =>
    intro d d' b hid h
    obtain ⟨key, value⟩ := kv
    by_cases hd : hasDollar key
    · rw [show updateUpsertAux ((key, value) :: rest) d false =
            updateUpsertAux rest d false from by simp [updateUpsertAux, hd]] at h
      rw [List.any_cons]
      simp only [hd]
      simp only [Bool.not_true, Bool.false_and, Bool.false_or]
      exact ih d d' b hid h
    · simp only [updateUpsertAux, if_neg hd] at h
      by_cases hkey : key = "_id"
      · subst hkey
        simp only [hid] at h
        rw [show (false || ("_id" == "_id")) = true from by simp] at h
        have := updateUpsertAux_true rest _ d' b h
        rw [this, List.any_cons]
        simp [hd]
      · cases hg : docGet d key with
        | some dValue =>
          simp only [hg] at h
          by_cases hb : beqBValue value dValue
          · rw [if_pos hb] at h
            rw [List.any_cons]
            simp only [show (key == "_id") = false from by simp [hkey], Bool.and_false,
              Bool.false_or]
            exact ih d d' b hid h
          · rw [if_neg hb] at h
            exact Except.noConfusion h
        | none =>
          simp only [hg] at h
          rw [show (false || (key == "_id")) = false from by simp [hkey]] at h
          rw [List.any_cons]
          simp only [show (key == "_id") = false from by simp [hkey], Bool.and_false,
            Bool.false_or]
          exact ih _ d' b (by rw [docGet_set_ne d key value "_id" hkey]; exact hid) h

theorem updateUpsertAux_has_id : ∀ (pairs d : List (String × BValue))
    (d' : List (String × BValue)) (b : Bool) (w : BValue),
    docGet d "_id" = some w →
    updateUpsertAux pairs d false = .ok (d', b) →
    b = false := by
  intro pairs
  induction pairs with
  | nil =>
    intro d d' b w _ h
    simp only [updateUpsertAux, Except.ok.injEq, Prod.mk.injEq] at h
    exact h.2.symm
  | cons kv rest ih =>
    intro d d' b w hid h
    obtain ⟨key, value⟩ := kv
    by_cases hd : hasDollar key
    · rw [show updateUpsertAux ((key, value) :: rest) d false =
            updateUpsertAux rest d false from by simp [updateUpsertAux, hd]] at h
      exact ih d d' b w hid h
    · simp only [updateUpsertAux, if_neg hd] at h
      by_cases hkey : key = "_id"
      · subst hkey
        simp only [hid] at h
        by_cases hb : beqBValue value w
        · rw [if_pos hb] at h
          exact ih d d' b w hid h
        · rw [if_neg hb] at h
          exact Except.noConfusion h
      · cases hg : docGet d key with
        | some dValue =>
          simp only [hg] at h
          by_cases hb : beqBValue value dValue
          · rw [if_pos hb] at h
            exact ih d d' b w hid h
          · rw [if_neg hb] at h
            exact Except.noConfusion h
        | none =>
          simp only [hg] at h
          rw [show (false || (key == "_id")) = false from by simp [hkey]] at h
          exact ih _ d' b w (by rw [docGet_set_ne d key value "_id" hkey]; exact hid) h

theorem updateUpsertAux_preserves : ∀ (pairs d : List (String × BValue))
    (idu : Bool) (d' : List (String × BValue)) (b : Bool) (k : String) (v : BValue),
    docGet d k = some v →
    updateUpsertAux pairs d idu = .ok (d', b) →
    docGet d' k = some v := by
  intro pairs
  induction pairs with
  | nil =>
    intro d idu d' b k v hk h
    simp only [updateUpsertAux, Except.ok.injEq, Prod.mk.injEq] at h
    rw [← h.1]
    exact hk
  | cons kv rest ih =>
    intro d idu d' b k v hk h
    obtain ⟨key, value⟩ := kv
    by_cases hd : hasDollar key
    · rw [show updateUpsertAux ((key, value) :: rest) d idu =
            updateUpsertAux rest d idu from by simp [updateUpsertAux, hd]] at h
      exact ih d idu d' b k v hk h
    · simp only [updateUpsertAux, if_neg hd] at h
      cases hg : docGet d key with
      | some dValue =>
        simp only [hg] at h
        by_cases hb : beqBValue value dValue
        · rw [if_pos hb] at h
          exact ih d idu d' b k v hk h
        · rw [if_neg hb] at h
          exact Except.noConfusion h
      | none =>
        simp only [hg] at h
        have hkk : key ≠ k := by
          intro he
          subst he
          rw [hk] at hg
          exact Option.noConfusion hg
        exact ih _ _ d' b k v (by rw [docGet_set_ne d key value k hkk]; exact hk) h

theorem updateUpsertAux_conflict : ∀ (pairs d : List (String × BValue))
    (idu : Bool) (k : String) (v w : BValue),
    docGet d k = some v →
    docGet pairs k = some w →
    beqBValue w v = false →
    hasDollar k = false →
    updateUpsertAux pairs d idu =
      .error (.lazy "Key-value pair from query document is not equal to same key-value pair in update document") := by
  intro pairs
  induction pairs with
  | nil =>
    intro d idu k v w _ hw _ _
    exact absurd hw (by simp [docGet])
  | cons kv rest ih =>
    intro d idu k v w hv hw hne hnd
    obtain ⟨key, value⟩ := kv
    by_cases hkk : key = k
    · subst hkk
      have hvw : value = w := by simpa [docGet] using hw
      subst hvw
      rw [show updateUpsertAux ((key, value) :: rest) d idu =
            (if beqBValue value v then updateUpsertAux rest d idu
             else .error (.lazy "Key-value pair from query document is not equal to same key-value pair in update document")) from by
          simp only [updateUpsertAux, if_neg (by rw [hnd]; simp : ¬hasDollar key = true)]
          simp only [hv]]
      rw [if_neg (by rw [hne]; simp)]
    · have hw2 : docGet rest k = some w := by
        simpa [docGet, if_neg hkk] using hw
      by_cases hd : hasDollar key
      · rw [show updateUpsertAux ((key, value) :: rest) d idu =
              updateUpsertAux rest d idu from by simp [updateUpsertAux, hd]]
        exact ih d idu k v w hv hw2 hne hnd
      · cases hg : docGet d key with
        | some dValue =>
          rw [show updateUpsertAux ((key, value) :: rest) d idu =
                (if beqBValue value dValue = true then updateUpsertAux rest d idu
                 else .error (.lazy "Key-value pair from query document is not equal to same key-value pair in update document")) from by
              simp only [updateUpsertAux, if_neg hd, hg]]
          by_cases hb : beqBValue value dValue
          · rw [if_pos hb]
            exact ih d idu k v w hv hw2 hne hnd
          · rw [if_neg hb]
        | none =>
          rw [show updateUpsertAux ((key, value) :: rest) d idu =
                updateUpsertAux rest (docSet d key value) (idu || key == "_id") from by
              simp only [updateUpsertAux, if_neg hd, hg]]
          exact ih _ _ k v w (by rw [docGet_set_ne d key value k hkk]; exact hv) hw2 hne hnd

/-- C5 counterexample: a filter whose _id equality value is an array is
not a scalar pair, so the claim predicts a fresh ObjectID; but the source,
whose types.Array skip never matches the stored *types.Array, copies the
pair into the seed, sets idFilter, and generates nothing. -/
theorem c5_counterexample :
    Upsert [("$set", BValue.doc [("v", .str "y")])]
        [("_id", BValue.array [.int32 1])] false
        (.objectID [0, 0, 0, 0, 0, 0, 0, 0, 0, 0, 0, 0]) =
      .ok (some [("_id", BValue.array [.int32 1]), ("v", .str "y")], false) ∧
    filterSuppliesScalarID [("_id", BValue.array [.int32 1])] = false ∧
    setSuppliesID [("$set", BValue.doc [("v", .str "y")])] = false :=
  ⟨rfl, rfl, rfl⟩

/-- C5 (amended): in a non-replace upsert that returns without a panic, a
fresh ObjectID is stored as _id exactly when the filter contributed no
_id equality pair with a non-document value (array values included, as
the source fails to skip them) and the $set document of the update
contained no _id key. -/
theorem c5_id_generation (updateDoc filter : List (String × BValue))
    (newId : BValue) (odoc : Option (List (String × BValue))) (gen : Bool)
    (h : Upsert updateDoc filter false newId = .ok (odoc, gen)) :
    gen = true ↔ (filterSuppliesID filter = false ∧ setSuppliesID updateDoc = false) := by
  have hflag := filterUpsertAux_flag filter [] false
  simp only [Upsert] at h
  rw [if_neg (by simp)] at h
  rcases hfp : filterUpsert filter with ⟨seed, idf⟩
  have hfp' : filterUpsertAux filter [] false = (seed, idf) := hfp
  rw [hfp'] at hflag
  have hidf : idf = filterSuppliesID filter := by
    simpa [filterSuppliesID] using hflag
  simp only [hfp] at h
  cases huu : updateUpsert updateDoc idf seed with
  | error e =>
    simp only [huu] at h
    by_cases hidf0 : filterSuppliesID filter = true
    · have hit : idf = true := by rw [hidf, hidf0]
      rw [hit] at h
      have h2 : (Except.ok ((none : Option (List (String × BValue))), false) :
          Except CompErr (Option (List (String × BValue)) × Bool)) = .ok (odoc, gen) := h
      simp only [Except.ok.injEq, Prod.mk.injEq] at h2
      obtain ⟨_, hgen⟩ := h2
      rw [← hgen]
      simp [hidf0]
    · have hidf' : filterSuppliesID filter = false := by
        revert hidf0; cases filterSuppliesID filter <;> simp
      have hidfv : idf = false := by rw [hidf, hidf']
      rw [hidfv] at h
      exact Except.noConfusion h
  | ok pr =>
    obtain ⟨doc0, idu⟩ := pr
    simp only [huu] at h
    by_cases hidf0 : filterSuppliesID filter = true
    · have hit : idf = true := by rw [hidf, hidf0]
      rw [hit] at h
      have h2 : (Except.ok (some doc0, false) :
          Except CompErr (Option (List (String × BValue)) × Bool)) = .ok (odoc, gen) := h
      simp only [Except.ok.injEq, Prod.mk.injEq] at h2
      obtain ⟨_, hgen⟩ := h2
      rw [← hgen]
      simp [hidf0]
    · have hidf' : filterSuppliesID filter = false := by
        revert hidf0; cases filterSuppliesID filter <;> simp
      have hidfv : idf = false := by rw [hidf, hidf']
      rw [hidfv] at h huu
      have hseedid : docGet seed "_id" = none := by
        have hn := filterUpsertAux_get_none filter [] false "_id" (by simp [docGet])
          (by simpa [filterSuppliesID] using hidf')
        rw [hfp'] at hn
        simpa using hn
      have hidu : idu = setSuppliesID updateDoc := by
        simp only [updateUpsert] at huu
        cases hset : docGet updateDoc "$set" with
        | none =>
          simp only [hset, Except.ok.injEq, Prod.mk.injEq] at huu
          simp only [setSuppliesID, hset]
          exact huu.2.symm
        | some sv =>
          cases sv with
          | doc setDoc =>
            simp only [hset] at huu
            have := updateUpsertAux_no_id setDoc seed doc0 idu hseedid huu
            simp only [setSuppliesID, hset]
            exact this
          | int32 n =>
            simp only [hset, Except.ok.injEq, Prod.mk.injEq] at huu
            simp only [setSuppliesID, hset]
            exact huu.2.symm
          | int64 n =>
            simp only [hset, Except.ok.injEq, Prod.mk.injEq] at huu
            simp only [setSuppliesID, hset]
            exact huu.2.symm
          | double q =>
            simp only [hset, Except.ok.injEq, Prod.mk.injEq] at huu
            simp only [setSuppliesID, hset]
            exact huu.2.symm
          | str t =>
            simp only [hset, Except.ok.injEq, Prod.mk.injEq] at huu
            simp only [setSuppliesID, hset]
            exact huu.2.symm
          | bool b =>
            simp only [hset, Except.ok.injEq, Prod.mk.injEq] at huu
            simp only [setSuppliesID, hset]
            exact huu.2.symm
          | null =>
            simp only [hset, Except.ok.injEq, Prod.mk.injEq] at huu
            simp only [setSuppliesID, hset]
            exact huu.2.symm
          | datetime ms =>
            simp only [hset, Except.ok.injEq, Prod.mk.injEq] at huu
            simp only [setSuppliesID, hset]
            exact huu.2.symm
          | objectID b =>
            simp only [hset, Except.ok.injEq, Prod.mk.injEq] at huu
            simp only [setSuppliesID, hset]
            exact huu.2.symm
          | regex pat o =>
            simp only [hset, Except.ok.injEq, Prod.mk.injEq] at huu
            simp only [setSuppliesID, hset]
            exact huu.2.symm
          | array xs =>
            simp only [hset, Except.ok.injEq, Prod.mk.injEq] at huu
            simp only [setSuppliesID, hset]
            exact huu.2.symm
      cases hiduv : idu with
      | true =>
        rw [hiduv] at h
        have h2 : (Except.ok (some doc0, false) :
            Except CompErr (Option (List (String × BValue)) × Bool)) = .ok (odoc, gen) := h
        simp only [Except.ok.injEq, Prod.mk.injEq] at h2
        obtain ⟨_, hgen⟩ := h2
        rw [← hgen]
        rw [hiduv] at hidu
        simp [← hidu]
      | false =>
        rw [hiduv] at h
        have h2 : (Except.ok (some (docSet doc0 "_id" newId), true) :
            Except CompErr (Option (List (String × BValue)) × Bool)) = .ok (odoc, gen) := h
        simp only [Except.ok.injEq, Prod.mk.injEq] at h2
        obtain ⟨_, hgen⟩ := h2
        rw [← hgen]
        rw [hiduv] at hidu
        simp [hidf', ← hidu]

/-- Witness for C5 (amended): in a concrete upsert from filter (k = 5)
and update with $set (v = "y"), neither side supplies _id, and the
theorem yields that both supply-flags are false given that the id was
generated. -/
theorem c5_witness :
    filterSuppliesID [("k", BValue.int32 5)] = false ∧
    setSuppliesID [("$set", BValue.doc [("v", .str "y")])] = false :=
  (c5_id_generation [("$set", BValue.doc [("v", .str "y")])]
    [("k", BValue.int32 5)] (.objectID [0, 0, 0, 0, 0, 0, 0, 0, 0, 0, 0, 0])
    (some [("k", BValue.int32 5), ("v", .str "y"),
      ("_id", .objectID [0, 0, 0, 0, 0, 0, 0, 0, 0, 0, 0, 0])]) true rfl).mp rfl

/-- C6: the conflict error that updateUpsert reports is discarded by
Upsert.  updateUpsertAux does build the uncoded lazy conflict error when a
key held by both the filter seed and the $set document has differing
values, but Upsert assigns it to err and never checks it, returning
doc, nil unconditionally; the document is then nil, so when the filter
supplied no _id the id-generation branch dereferences it (doc.Set panics),
and when the filter did supply _id the upsert silently returns a nil
document with a nil error.  In neither case is the BadValue error the
claim states (or any error value) returned to the caller. -/
theorem c6_conflict_error_discarded :
    updateUpsertAux [("k", BValue.int32 2)] [("k", BValue.int32 1)] false =
      .error (.lazy "Key-value pair from query document is not equal to same key-value pair in update document") ∧
    Upsert [("$set", BValue.doc [("k", .int32 2)])] [("k", BValue.int32 1)] false
        (.objectID [0, 0, 0, 0, 0, 0, 0, 0, 0, 0, 0, 0]) =
      .error (.goPanic "Upsert: Set called on nil document") ∧
    Upsert [("$set", BValue.doc [("_id", .int32 7), ("k", .int32 2)])]
        [("_id", BValue.int32 7), ("k", .int32 1)] false
        (.objectID [0, 0, 0, 0, 0, 0, 0, 0, 0, 0, 0, 0]) =
      .ok (none, false) :=
  ⟨rfl, rfl, rfl⟩


/-- The handler a registry entry dispatches to (function pointers in the
Go command struct; help texts omitted). -/
inductive HandlerTag where
  | msgBuildInfo
  | msgUsersInfo
  | msgRolesInfo
  | msgGetLastError
  | msgConnectionStatus
  | msgCreate
  | msgDBStats
  | msgDrop
  | msgDropDatabase
  | msgGetLog
  | msgHostInfo
  | msgHello
  | msgListCollections
  | msgListDatabases
  | noHandler
  | msgPing
  | msgWhatsMyURI
  | msgAuthenticate
  | storageDelete
  | storageFindOrCount
  | storageFindAndModify
  | storageInsert
  | storageUpdate
  | debugError
  | debugPanic
  deriving DecidableEq

/-- command.go command: the registry entry (name and handler; the help
text is omitted as no claim concerns it). -/
structure CommandEntry where
  name : String
  tag : HandlerTag
  deriving DecidableEq

/-- command.go commands: the static registry, in source order (a Go map;
order is irrelevant to lookup). -/
def commands : List (String × CommandEntry) := [
  ("buildInfo", ⟨"buildInfo", .msgBuildInfo⟩),
  ("usersInfo", ⟨"usersInfo", .msgUsersInfo⟩),
  ("rolesInfo", ⟨"rolesInfo", .msgRolesInfo⟩),
  ("getlasterror", ⟨"getlasterror", .msgGetLastError⟩),
  ("getLastError", ⟨"getLastError", .msgGetLastError⟩),
  ("connectionStatus", ⟨"connectionStatus", .msgConnectionStatus⟩),
  ("create", ⟨"create", .msgCreate⟩),
  ("dbStats", ⟨"dbStats", .msgDBStats⟩),
  ("drop", ⟨"drop", .msgDrop⟩),
  ("dropDatabase", ⟨"dropDatabase", .msgDropDatabase⟩),
  ("getLog", ⟨"getLog", .msgGetLog⟩),
  ("hostInfo", ⟨"hostInfo", .msgHostInfo⟩),
  ("isMaster", ⟨"isMaster", .msgHello⟩),
  ("hello", ⟨"hello", .msgHello⟩),
  ("listCollections", ⟨"listCollections", .msgListCollections⟩),
  ("listDatabases", ⟨"listDatabases", .msgListDatabases⟩),
  ("listCommands", ⟨"listCommands", .noHandler⟩),
  ("ping", ⟨"ping", .msgPing⟩),
  ("whatsmyuri", ⟨"whatsmyuri", .msgWhatsMyURI⟩),
  ("authenticate", ⟨"authenticate", .msgAuthenticate⟩),
  ("delete", ⟨"delete", .storageDelete⟩),
  ("find", ⟨"find", .storageFindOrCount⟩),
  ("findAndModify", ⟨"findAndModify", .storageFindAndModify⟩),
  ("count", ⟨"count", .storageFindOrCount⟩),
  ("insert", ⟨"insert", .storageInsert⟩),
  ("update", ⟨"update", .storageUpdate⟩),
  ("debug_error", ⟨"debug_error", .debugError⟩),
  ("debug_panic", ⟨"debug_panic", .debugPanic⟩)]

/-- Registry lookup by command name (Go map indexing). -/
def commandsLookup (k : String) : Option CommandEntry :=
  commands.lookup k

/-- strings.ToLower for ASCII command names. -/
def lowerString (s : String) : String := ⟨s.data.map Char.toLower⟩

/-- C7 counterexample: the registry key "buildInfo" is not the lowercase
form of the command name it maps to, and a lowercase-normalized lookup of
the mixed-case command dbStats misses the registry entirely — so the
claimed lowercase-keyed registry with case-insensitive dispatch is false. -/
theorem c7_counterexample :
    commandsLookup "buildInfo" = some ⟨"buildInfo", .msgBuildInfo⟩ ∧
    ¬ ("buildInfo" = lowerString "buildInfo") ∧
    commandsLookup (lowerString "dbStats") = none := by
  refine ⟨rfl, by decide, rfl⟩

/-- C7 (amended): every registry key equals, verbatim (not lowercased),
the name of the command it maps to; getLastError additionally has an
all-lowercase alias key getlasterror with its own equally-named entry.
Keys are mixed-case, so dispatch must use the first request key verbatim. -/
theorem c7_keys_eq_names :
    (commands.all fun kc => kc.2.name == kc.1) = true := by decide

/-- msg_createindexes.go generateObjectID: big-endian seconds, five
process bytes, three counter bytes; the counter is the package-level
uint32 incremented atomically, threaded here as explicit state with
uint32 wraparound. -/
def be32 (n : Nat) : List Nat :=
  [n / 2 ^ 24 % 256, n / 2 ^ 16 % 256, n / 2 ^ 8 % 256, n % 256]

/-- generateObjectID: returns the 12 id bytes and the new counter state. -/
def generateObjectID (t : Nat) (process : List Nat) (counter : Nat) :
    List Nat × Nat :=
  let c := (counter + 1) % 2 ^ 32
  (be32 (t % 2 ^ 32) ++ process ++ [c / 2 ^ 16 % 256, c / 2 ^ 8 % 256, c % 256], c)

/-- The 24-bit counter value held in bytes 9..11 of an ObjectID. -/
def counterValue (id : List Nat) : Nat :=
  id.getD 9 0 * 2 ^ 16 + id.getD 10 0 * 2 ^ 8 + id.getD 11 0

set_option maxRecDepth 2000 in
theorem counterValue_layout (x a b cc : Nat) (process : List Nat)
    (hp : process.length = 5) :
    counterValue (be32 x ++ process ++ [a, b, cc]) = a * 2 ^ 16 + b * 2 ^ 8 + cc := by
  match process, hp with
  | [p0, p1, p2, p3, p4], _ => rfl

theorem bytes24_value (c : Nat) :
    c / 2 ^ 16 % 256 * 2 ^ 16 + c / 2 ^ 8 % 256 * 2 ^ 8 + c % 256 = c % 2 ^ 24 := by
  omega

/-- C9: across two consecutive generateObjectID calls with the same clock
second and process bytes, the 24-bit counter in bytes 9..11 of the second
id equals that of the first plus one modulo 2^24 (the top byte of the
32-bit counter is ignored), and the two ids differ. -/
theorem c9_objectid_counter (t : Nat) (process : List Nat) (c0 : Nat)
    (hp : process.length = 5) :
    counterValue (generateObjectID t process ((generateObjectID t process c0).2)).1 =
      (counterValue (generateObjectID t process c0).1 + 1) % 2 ^ 24 ∧
    (generateObjectID t process c0).1 ≠
      (generateObjectID t process ((generateObjectID t process c0).2)).1 := by
  simp only [generateObjectID]
  rw [counterValue_layout _ _ _ _ process hp, counterValue_layout _ _ _ _ process hp]
  rw [bytes24_value, bytes24_value]
  constructor
  · omega
  · intro heq
    have hc := List.append_cancel_left heq
    simp only [List.cons.injEq, and_true] at hc
    have h3 : (c0 + 1) % 2 ^ 32 % 256 = ((c0 + 1) % 2 ^ 32 + 1) % 2 ^ 32 % 256 := hc.2.2
    omega

/-- Witness for C9 at a concrete time, process id and counter. -/
theorem c9_witness :
    counterValue (generateObjectID 7 [1, 2, 3, 4, 5]
        ((generateObjectID 7 [1, 2, 3, 4, 5] 0).2)).1 =
      (counterValue (generateObjectID 7 [1, 2, 3, 4, 5] 0).1 + 1) % 2 ^ 24 ∧
    (generateObjectID 7 [1, 2, 3, 4, 5] 0).1 ≠
      (generateObjectID 7 [1, 2, 3, 4, 5]
        ((generateObjectID 7 [1, 2, 3, 4, 5] 0).2)).1 :=
  c9_objectid_counter 7 [1, 2, 3, 4, 5] 0 (by decide)

/-- Outcome of a Go UnmarshalJSON call: a panic, an error return, or
success. -/
inductive UnmarshalOutcome where
  | panics
  | errors
  | ok
  deriving DecidableEq

/-- A JSON hexadecimal digit. -/
def isHexDigit (c : Char) : Bool := "0123456789abcdefABCDEF".data.contains c

/-- Modelled from the spec: the body of a JSON string literal after the
opening quote, per encoding/json — escapes, no raw control characters,
closing quote; returns the remaining input. -/
def parseStringBody : List Char → Option (List Char)
  | [] => none
  | '"' :: rest => some rest
  | '\\' :: esc :: rest =>
    if ['"', '\\', '/', 'b', 'f', 'n', 'r', 't'].contains esc then
      parseStringBody rest
    else if esc = 'u' then
      match rest with
      | h1 :: h2 :: h3 :: h4 :: rest2 =>
        if isHexDigit h1 && isHexDigit h2 && isHexDigit h3 && isHexDigit h4 then
          parseStringBody rest2
        else
          none
      | _ => none
    else
      none
  | c :: rest => if c.toNat < 32 then none else parseStringBody rest

/-- JSON insignificant whitespace. -/
def skipWS : List Char → List Char
  | [] => []
  | c :: rest => if [' ', '\t', '\n', '\r'].contains c then skipWS rest else c :: rest

/-- Modelled from the spec: json.Unmarshal of the data into a Go string —
optional whitespace, one string literal, optional trailing whitespace. -/
def jsonDecodeString (data : String) : Bool :=
  match skipWS data.data with
  | '"' :: rest =>
    match parseStringBody rest with
    | some rest2 => skipWS rest2 = ([] : List Char)
    | none => false
  | _ => false

/-- main.go (fjson) String.UnmarshalJSON: panics on the exact input
"null", otherwise defers to json.Unmarshal and reports its error. -/
def fjsonStringUnmarshalJSON (data : String) : UnmarshalOutcome :=
  if data = "null" then
    .panics
  else if jsonDecodeString data then
    .ok
  else
    .errors

/-- C10: fjson String decoding is not total: the exact input "null" —
which json.Unmarshal would merely report as an error, as it is not a JSON
string — panics instead, while every other input that is not a valid JSON
string is reported as an error return. -/
theorem c10_fjson_string_null_panics :
    fjsonStringUnmarshalJSON "null" = .panics ∧
    jsonDecodeString "null" = false ∧
    (∀ d : String, d ≠ "null" → jsonDecodeString d = false →
      fjsonStringUnmarshalJSON d = .errors) := by
  refine ⟨rfl, rfl, ?_⟩
  intro d h1 h2
  simp [fjsonStringUnmarshalJSON, h1, h2]

/-- Witness for C10 at the concrete invalid input "nul". -/
theorem c10_witness : fjsonStringUnmarshalJSON "nul" = .errors :=
  c10_fjson_string_null_panics.2.2 "nul" (by decide) rfl

/-- Read exactly k bytes from the input. -/
def readN (k : Nat) (s : List Nat) : Option (List Nat × List Nat) :=
  if k ≤ s.length then some (s.take k, s.drop k) else none

/-- The little-endian value of four bytes. -/
def le32 : List Nat → Nat
  | [b0, b1, b2, b3] => b0 + b1 * 256 + b2 * 65536 + b3 * 16777216
  | _ => 0

/-- bson.CString.ReadFrom: the bytes before the NUL terminator, and the
remaining input after it; fails on missing terminator. -/
def readCString : List Nat → Option (List Nat × List Nat)
  | [] => none
  | b :: rest =>
    if b = 0 then
      some ([], rest)
    else
      match readCString rest with
      | some (cs, r) => some (b :: cs, r)
      | none => none

mutual

/-- Modelled from the spec: the BSON element list of a document body —
type byte, cstring key, value — for the closed type set (double, string,
document, array, objectid, bool, datetime, null, regex, int32, int64).
Fuel bounds the recursion of the embedding only. -/
def elemsValid : Nat → List Nat → Bool
  | 0, _ => false
  | _ + 1, [] => true
  | fuel + 1, t :: rest =>
    match readCString rest with
    | none => false
    | some (_, r1) =>
      if t = 1 ∨ t = 9 ∨ t = 18 then
        match readN 8 r1 with
        | some (_, r2) => elemsValid fuel r2
        | none => false
      else if t = 16 then
        match readN 4 r1 with
        | some (_, r2) => elemsValid fuel r2
        | none => false
      else if t = 7 then
        match readN 12 r1 with
        | some (_, r2) => elemsValid fuel r2
        | none => false
      else if t = 8 then
        match r1 with
        | b :: r2 => if b = 0 ∨ b = 1 then elemsValid fuel r2 else false
        | [] => false
      else if t = 10 then
        elemsValid fuel r1
      else if t = 2 then
        match readN 4 r1 with
        | some (lb, r2) =>
          (match readN (le32 lb) r2 with
           | some (sb, r3) =>
             if 1 ≤ le32 lb ∧ sb.getLast? = some 0 then elemsValid fuel r3 else false
           | none => false)
        | none => false
      else if t = 11 then
        match readCString r1 with
        | some (_, r2) =>
          (match readCString r2 with
           | some (_, r3) => elemsValid fuel r3
           | none => false)
        | none => false
      else if t = 3 ∨ t = 4 then
        match docBlock fuel r1 with
        | some r2 => elemsValid fuel r2
        | none => false
      else
        false
  termination_by structural fuel _ => fuel

/-- Modelled from the spec: BSON document framing — little-endian total
length (including itself and the trailing NUL, between 5 and 16 MiB),
element list, 0x00 terminator; returns the input remaining after the
document. -/
def docBlock : Nat → List Nat → Option (List Nat)
  | 0, _ => none
  | fuel + 1, s =>
    match readN 4 s with
    | none => none
    | some (lb, _) =>
      if 5 ≤ le32 lb ∧ le32 lb ≤ 16777216 then
        match readN (le32 lb) s with
        | some (blk, rest) =>
          if blk.getLast? = some 0 ∧ elemsValid fuel ((blk.drop 4).dropLast) then
            some rest
          else
            none
        | none => none
      else
        none
  termination_by structural fuel _ => fuel

end

/-- bson.Document.ReadFrom at the head of the input (fuel chosen from the
announced length, which bounds the element count). -/
def readDoc (s : List Nat) : Option (List Nat) :=
  match readN 4 s with
  | none => none
  | some (lb, _) => docBlock (le32 lb + 1) s

/-- binary.go OpQuery.readFrom: flags, fullCollectionName, numberToSkip,
numberToReturn, query document, then — exactly when bytes remain (the
Peek(1) check) — the returnFieldsSelector document.  Returns whether a
selector was read and the remaining input. -/
def opQueryReadFrom (s : List Nat) : Option (Bool × List Nat) :=
  match readN 4 s with
  | none => none
  | some (_, s1) =>
    match readCString s1 with
    | none => none
    | some (_, s2) =>
      match readN 4 s2 with
      | none => none
      | some (_, s3) =>
        match readN 4 s3 with
        | none => none
        | some (_, s4) =>
          match readDoc s4 with
          | none => none
          | some s5 =>
            match s5 with
            | [] => some (false, [])
            | _ =>
              match readDoc s5 with
              | none => none
              | some s6 => some (true, s6)

/-- binary.go OpQuery.UnmarshalBinary: readFrom must consume the whole
byte slice; any remaining byte is "unexpected end of the OpQuery". -/
def opQueryUnmarshalBinary (b : List Nat) : Except CompErr Unit :=
  match opQueryReadFrom b with
  | none => .error (.lazy "wire.OpQuery.UnmarshalBinary: read failed")
  | some (_, rest) =>
    match rest with
    | [] => .ok ()
    | _ => .error (.lazy "unexpected end of the OpQuery")

theorem readN_append {k : Nat} {s v r t : List Nat} (h : readN k s = some (v, r)) :
    readN k (s ++ t) = some (v, r ++ t) := by
  simp only [readN] at h
  split at h
  · rename_i hk
    simp only [Option.some.injEq, Prod.mk.injEq] at h
    obtain ⟨hv, hr⟩ := h
    simp only [readN, List.length_append, if_pos (Nat.le_trans hk (Nat.le_add_right _ _)),
      Option.some.injEq, Prod.mk.injEq]
    constructor
    · rw [← hv, List.take_append_of_le_length hk]
    · rw [← hr, List.drop_append_of_le_length hk]
  · exact Option.noConfusion h

theorem readCString_append {s v r t : List Nat} (h : readCString s = some (v, r)) :
    readCString (s ++ t) = some (v, r ++ t) := by
  induction s generalizing v r with
  | nil => exact absurd h (by simp [readCString])
  | cons b rest ih =>
    by_cases hb : b = 0
    · subst hb
      have hv : ([] : List Nat) = v ∧ rest = r := by simpa [readCString] using h
      obtain ⟨hv1, hv2⟩ := hv
      subst hv1
      subst hv2
      simp [readCString]
    · simp only [readCString, if_neg hb] at h
      cases hc : readCString rest with
      | none => rw [hc] at h; exact Option.noConfusion h
      | some pr =>
        obtain ⟨cs, r2⟩ := pr
        rw [hc] at h
        simp only [Option.some.injEq, Prod.mk.injEq] at h
        obtain ⟨hv, hr⟩ := h
        subst hr
        rw [show (b :: rest) ++ t = b :: (rest ++ t) from rfl]
        simp only [readCString, if_neg hb, ih hc]
        simp [hv]

theorem docBlock_append {f : Nat} {s r t : List Nat} (h : docBlock f s = some r) :
    docBlock f (s ++ t) = some (r ++ t) := by
  cases f with
  | zero => exact Option.noConfusion h
  | succ n =>
    simp only [docBlock] at h
    cases h4 : readN 4 s with
    | none => rw [h4] at h; exact Option.noConfusion h
    | some p4 =>
      obtain ⟨lb, s4⟩ := p4
      rw [h4] at h
      simp only at h
      split at h
      · rename_i hlen
        cases hn : readN (le32 lb) s with
        | none => rw [hn] at h; exact Option.noConfusion h
        | some pn =>
          obtain ⟨blk, rest⟩ := pn
          rw [hn] at h
          simp only at h
          split at h
          · rename_i hblk
            simp only [Option.some.injEq] at h
            simp only [docBlock, readN_append h4, if_pos hlen, readN_append hn,
              if_pos hblk, Option.some.injEq]
            rw [← h]
          · exact Option.noConfusion h
      · exact Option.noConfusion h

theorem readDoc_append {s r t : List Nat} (h : readDoc s = some r) :
    readDoc (s ++ t) = some (r ++ t) := by
  simp only [readDoc] at h
  cases h4 : readN 4 s with
  | none => rw [h4] at h; exact Option.noConfusion h
  | some p4 =>
    obtain ⟨lb, s4⟩ := p4
    rw [h4] at h
    simp only at h
    simp only [readDoc, readN_append h4]
    exact docBlock_append h

/-- C8 counterexample: a well-formed OP_QUERY body with no selector,
followed by five extra trailing bytes that happen to form an empty BSON
document, is ACCEPTED (the trailing bytes are consumed as the optional
returnFieldsSelector), so the claim that any trailing bytes are rejected
is false. -/
theorem c8_counterexample :
    opQueryUnmarshalBinary
      ([0, 0, 0, 0] ++ [0] ++ [0, 0, 0, 0] ++ [0, 0, 0, 0] ++ [5, 0, 0, 0, 0]) =
      .ok () ∧
    opQueryUnmarshalBinary
      (([0, 0, 0, 0] ++ [0] ++ [0, 0, 0, 0] ++ [0, 0, 0, 0] ++ [5, 0, 0, 0, 0]) ++
        [5, 0, 0, 0, 0]) = .ok () := ⟨rfl, rfl⟩

/-- C8 (amended): a well-formed OP_QUERY body that already contains the
optional returnFieldsSelector is accepted as-is, and rejecting any
non-empty trailing suffix appended to it; a body without the selector
followed by trailing bytes is rejected unless those bytes form exactly one
document, which is then consumed as the selector. -/
theorem c8_trailing_bytes (b extra : List Nat)
    (hb : opQueryReadFrom b = some (true, []))
    (hx : extra ≠ []) :
    opQueryUnmarshalBinary b = .ok () ∧
    opQueryUnmarshalBinary (b ++ extra) =
      .error (.lazy "unexpected end of the OpQuery") := by
  constructor
  · simp only [opQueryUnmarshalBinary, hb]
  · have happ : opQueryReadFrom (b ++ extra) = some (true, extra) := by
      simp only [opQueryReadFrom] at hb
      cases h1 : readN 4 b with
      | none => rw [h1] at hb; exact Option.noConfusion hb
      | some p1 =>
        obtain ⟨v1, s1⟩ := p1
        rw [h1] at hb
        simp only at hb
        cases h2 : readCString s1 with
        | none => rw [h2] at hb; exact Option.noConfusion hb
        | some p2 =>
          obtain ⟨v2, s2⟩ := p2
          rw [h2] at hb
          simp only at hb
          cases h3 : readN 4 s2 with
          | none => rw [h3] at hb; exact Option.noConfusion hb
          | some p3 =>
            obtain ⟨v3, s3⟩ := p3
            rw [h3] at hb
            simp only at hb
            cases h4 : readN 4 s3 with
            | none => rw [h4] at hb; exact Option.noConfusion hb
            | some p4 =>
              obtain ⟨v4, s4⟩ := p4
              rw [h4] at hb
              simp only at hb
              cases h5 : readDoc s4 with
              | none => rw [h5] at hb; exact Option.noConfusion hb
              | some s5 =>
                rw [h5] at hb
                simp only at hb
                cases s5 with
                | nil =>
                  simp only [Option.some.injEq, Prod.mk.injEq] at hb
                  exact absurd hb.1 (by simp)
                | cons c5 r5 =>
                  cases h6 : readDoc (c5 :: r5) with
                  | none => rw [h6] at hb; exact Option.noConfusion hb
                  | some s6 =>
                    rw [h6] at hb
                    simp only [Option.some.injEq, Prod.mk.injEq] at hb
                    have hs6 : s6 = [] := hb.2
                    subst hs6
                    simp only [opQueryReadFrom, readN_append h1, readCString_append h2,
                      readN_append h3, readN_append h4, readDoc_append h5,
                      List.cons_append]
                    have h6' := readDoc_append (t := extra) h6
                    simp only [List.cons_append, List.nil_append] at h6'
                    simp only [h6']
    simp only [opQueryUnmarshalBinary, happ]

/-- Witness for C8 (amended): a concrete body that includes the selector
is accepted, and one extra zero byte appended to it is rejected. -/
theorem c8_witness :
    opQueryUnmarshalBinary
      ([0, 0, 0, 0] ++ [0] ++ [0, 0, 0, 0] ++ [0, 0, 0, 0] ++ [5, 0, 0, 0, 0] ++
        [5, 0, 0, 0, 0]) = .ok () ∧
    opQueryUnmarshalBinary
      (([0, 0, 0, 0] ++ [0] ++ [0, 0, 0, 0] ++ [0, 0, 0, 0] ++ [5, 0, 0, 0, 0] ++
        [5, 0, 0, 0, 0]) ++ [0]) =
      .error (.lazy "unexpected end of the OpQuery") :=
  c8_trailing_bytes
    ([0, 0, 0, 0] ++ [0] ++ [0, 0, 0, 0] ++ [0, 0, 0, 0] ++ [5, 0, 0, 0, 0] ++
      [5, 0, 0, 0, 0]) [0] rfl (by decide)
